import Mathlib

/-!
# AOS ring signatures (package `ringsig`): a shallow embedding of `ring_sig.go`

The Go functions `mod`, `randFieldElement`, `Sign` and `Verify` are rendered as
Lean functions with explicit state passing.

* Go `int` and `*big.Int` values are `Int`; byte slices are `List Byte`.
* A run-time panic (index out of range, division by zero) is an `Except.error`.
* The collaborators of the package (the curve, the hash instance, the random
  reader) are parameters: a `Curve` is a record of its three operations, a
  `Hash` is a digest function together with the bytes written since the last
  reset, a reader is the list of bytes it will still supply.
* Every call made to a collaborator is appended to a ghost record `calls`, so
  that "no hash call was made" or "exactly N reads were made" can be stated.
-/

namespace Ringsig

/-! ## Bytes and big integers -/

/-- One octet. -/
abbrev Byte := Fin 256

/-- Go `new(big.Int).SetBytes(b)`: the big-endian unsigned value of `b`. -/
def SetBytes (b : List Byte) : Nat :=
  b.foldl (fun acc x => acc * 256 + x.val) 0

/-- Big-endian digits of `n` in base 256, most significant first, pushed in
front of `acc`; the first argument bounds the number of digits produced. -/
def bytesAux : Nat → Nat → List Byte → List Byte
  | 0, _, acc => acc
  | fuel + 1, n, acc =>
    if n = 0 then acc
    else bytesAux fuel (n / 256) (⟨n % 256, Nat.mod_lt _ (by decide)⟩ :: acc)

/-- Go `x.Bytes()`: the big-endian bytes of the absolute value of `x`, without
leading zeros (the empty slice for zero). -/
def Bytes (x : Int) : List Byte :=
  bytesAux x.natAbs x.natAbs []

/-- Go `var one = new(big.Int).SetInt64(1)`. -/
def one : Int := 1

/-! ## Collaborators -/

/-- Run-time faults of the embedded code. `outOfFuel` is not a Go fault: it is
returned by a loop model whose iteration budget is exhausted. -/
inductive Fault
  | indexOutOfRange
  | divisionByZero
  | outOfFuel
  deriving DecidableEq, Repr

/-- The part of `elliptic.Curve` used by the package: `Params().N`,
`Params().BitSize` and the three group operations on affine coordinates. -/
structure Curve where
  N : Int
  BitSize : Nat
  Add : Int × Int → Int × Int → Int × Int
  ScalarMult : Int × Int → List Byte → Int × Int
  ScalarBaseMult : List Byte → Int × Int

/-- Go `ecdsa.PublicKey`: the embedded curve and the affine coordinates. -/
structure PublicKey where
  Curve : Curve
  X : Int
  Y : Int

/-- Go `ecdsa.PrivateKey`: the embedded public key and the secret scalar. -/
structure PrivateKey where
  PublicKey : PublicKey
  D : Int

/-- Go `hash.Hash` instance: `sum` maps the bytes written since the last reset
to the digest, `buf` holds those bytes. -/
structure Hash where
  sum : List Byte → List Byte
  buf : List Byte

/-- A call made to one of the collaborators. -/
inductive Call
  | hashReset
  | hashWrite (p : List Byte)
  | hashSum
  | randRead (n : Nat)
  | curveScalarBaseMult
  | curveScalarMult
  | curveAdd
  deriving DecidableEq

/-- Go `SignerOpts` (`h hash.Hash`, `rand io.Reader`) as a state: `rand` is the
list of bytes the reader will still supply. The ghost field `calls` records, in
order, the calls made to the hash, the reader and the curve. -/
structure SignerOpts where
  h : Hash
  rand : List Byte
  calls : List Call

/-- Go `RingSig`: `e` is the initial challenge, `s` the scalars. -/
structure RingSig where
  e : List Byte
  s : List Int

/-- Go `opts.h.Reset()`. -/
def hReset (o : SignerOpts) : SignerOpts :=
  { o with h := { o.h with buf := [] }, calls := o.calls ++ [Call.hashReset] }

/-- Go `opts.h.Write(p)`. -/
def hWrite (o : SignerOpts) (p : List Byte) : SignerOpts :=
  { o with h := { o.h with buf := o.h.buf ++ p }, calls := o.calls ++ [Call.hashWrite p] }

/-- Go `opts.h.Sum(nil)`: the digest of the bytes written so far; the hash state
is left as it is. -/
def hSum (o : SignerOpts) : List Byte × SignerOpts :=
  (o.h.sum o.h.buf, { o with calls := o.calls ++ [Call.hashSum] })

/-- Go `io.ReadFull(rand, b)` with `len(b) = n`: either exactly `n` bytes, or
an error after the reader has been drained. -/
def ReadFull (o : SignerOpts) (n : Nat) : Option (List Byte) × SignerOpts :=
  if n ≤ o.rand.length then
    (some (o.rand.take n), { o with rand := o.rand.drop n, calls := o.calls ++ [Call.randRead n] })
  else
    (none, { o with rand := [], calls := o.calls ++ [Call.randRead n] })

/-- Go `curve.ScalarBaseMult(k)`, recorded. -/
def cScalarBaseMult (c : Curve) (k : List Byte) (o : SignerOpts) : (Int × Int) × SignerOpts :=
  (c.ScalarBaseMult k, { o with calls := o.calls ++ [Call.curveScalarBaseMult] })

/-- Go `curve.ScalarMult(x, y, k)`, recorded. -/
def cScalarMult (c : Curve) (p : Int × Int) (k : List Byte) (o : SignerOpts) :
    (Int × Int) × SignerOpts :=
  (c.ScalarMult p k, { o with calls := o.calls ++ [Call.curveScalarMult] })

/-- Go `curve.Add(x1, y1, x2, y2)`, recorded. -/
def cAdd (c : Curve) (p q : Int × Int) (o : SignerOpts) : (Int × Int) × SignerOpts :=
  (c.Add p q, { o with calls := o.calls ++ [Call.curveAdd] })

/-- Go slice read `xs[i]` with an `int` index. -/
def index {α : Type} (xs : List α) (i : Int) : Except Fault α :=
  if 0 ≤ i then
    match xs[i.toNat]? with
    | some x => .ok x
    | none => .error Fault.indexOutOfRange
  else .error Fault.indexOutOfRange

/-- Go slice write `xs[i] = v` with an `int` index. -/
def assign {α : Type} (xs : List α) (i : Int) (v : α) : Except Fault (List α) :=
  if 0 ≤ i ∧ i < xs.length then .ok (xs.set i.toNat v)
  else .error Fault.indexOutOfRange

/-! ## The package -/

/-- Go `mod(x, N)`. -/
def mod (x N : Int) : Int :=
  if x < 0 then x + N else x

/-- Go `randFieldElement(c, rand)`. The result is `none` when `io.ReadFull`
fails (`k == nil`, `err != nil`) and `some k` otherwise; `k.Mod(k, n)` with
`n = N - 1 = 0` is a division-by-zero panic, and `big.Int.Mod` is the Euclidean
modulus. The diagnostic `fmt.Println` is not modelled. -/
def randFieldElement (c : Curve) (o : SignerOpts) : Except Fault (Option Int × SignerOpts) :=
  let (r, o) := ReadFull o (c.BitSize / 8 + 8)
  match r with
  | none => .ok (none, o)
  | some b =>
    let k : Int := SetBytes b
    let n : Int := c.N - one
    if n = 0 then .error Fault.divisionByZero
    else .ok (some (k % n + one), o)

/-- State of the walk loop of `Sign`: the current challenge `e`, the table `es`
(`none` is a slot that still holds its initial nil slice), the scalars `s` and
the options. -/
structure Walk where
  e : List Byte
  es : List (Option (List Byte))
  s : List Int
  opts : SignerOpts

/-- Lines 53-67 of `Sign`: draw the nonce `k` and compute the seed challenge
`e_{j+1} = H(k*G || m || P_{j+1})`. The result is `none` when the draw fails. -/
def signSeed (curve : Curve) (pubs : List PublicKey) (j : Int) (msg : List Byte)
    (es : List (Option (List Byte))) (s : List Int) (opts : SignerOpts) :
    Except Fault (Option (Int × Walk) × SignerOpts) := do
  let N : Int := pubs.length
  let (r, opts) ← randFieldElement curve opts
  match r with
  | none => return (none, opts)
  | some k =>
    let (K, opts) := cScalarBaseMult curve (Bytes k) opts
    let opts := hReset opts
    let opts := hWrite opts (Bytes K.1)
    let opts := hWrite opts (Bytes K.2)
    let opts := hWrite opts msg
    let p ← index pubs ((j + 1).tmod N)
    let opts := hWrite opts (Bytes p.X)
    let p ← index pubs ((j + 1).tmod N)
    let opts := hWrite opts (Bytes p.Y)
    let (e, opts) := hSum opts
    let es ← assign es ((j + 1).tmod N) (some e)
    return (some (k, ⟨e, es, s, opts⟩), opts)

/-- Body of the walk loop of `Sign` (lines 71-87) at loop index `i`. The result
is `none` when the draw fails. -/
def walkBody (curve : Curve) (pubs : List PublicKey) (msg : List Byte) (i : Int)
    (st : Walk) : Except Fault (Option Walk × SignerOpts) := do
  let N : Int := pubs.length
  let (r, opts) ← randFieldElement curve st.opts
  match r with
  | none => return (none, opts)
  | some s =>
    let ss ← assign st.s (mod (i - 1) N) s
    let opts := hReset opts
    let (K, opts) := cScalarBaseMult curve (Bytes s) opts
    let p ← index pubs (mod (i - 1) N)
    let q ← index pubs (mod (i - 1) N)
    let (E, opts) := cScalarMult curve (p.X, q.Y) st.e opts
    let (K, opts) := cAdd curve K E opts
    let opts := hWrite opts (Bytes K.1)
    let opts := hWrite opts (Bytes K.2)
    let opts := hWrite opts msg
    let p ← index pubs i
    let opts := hWrite opts (Bytes p.X)
    let p ← index pubs i
    let opts := hWrite opts (Bytes p.Y)
    let (e, opts) := hSum opts
    let es ← assign st.es i (some e)
    return (some ⟨e, es, ss, opts⟩, opts)

/-- The walk loop of `Sign`:
`for i := (j+2)%N; i != (j+1)%N; i = (i+1)%N`, with an iteration budget. -/
def walk (curve : Curve) (pubs : List PublicKey) (j : Int) (msg : List Byte) :
    Nat → Int → Walk → Except Fault (Option Walk × SignerOpts)
  | 0, i, st =>
    if i = (j + 1).tmod pubs.length then .ok (some st, st.opts)
    else .error Fault.outOfFuel
  | fuel + 1, i, st =>
    if i = (j + 1).tmod pubs.length then .ok (some st, st.opts)
    else
      match walkBody curve pubs msg i st with
      | .error f => .error f
      | .ok (none, opts) => .ok (none, opts)
      | .ok (some st, _) => walk curve pubs j msg fuel ((i + 1).tmod pubs.length) st

/-- Lines 89-95 of `Sign`: close the ring,
`s_j = (k - e_j * sk.D) mod curve.N`, and take `es[0]` as initial challenge. -/
def signClose (curve : Curve) (j : Int) (sk : PrivateKey) (k : Int) (st : Walk) :
    Except Fault RingSig := do
  let E : Int := SetBytes st.e
  let s : Int := k - E * sk.D
  if curve.N = 0 then throw Fault.divisionByZero
  let ss ← assign st.s j (s % curve.N)
  let e0 ← index st.es 0
  return ⟨e0.getD [], ss⟩

/-- Go `Sign(pubs, j, sk, msg, opts)`. The result is `none` for a nil
signature. The walk loop is given `len(pubs)` iterations. -/
def Sign (pubs : List PublicKey) (j : Int) (sk : PrivateKey) (msg : List Byte)
    (opts : SignerOpts) : Except Fault (Option RingSig × SignerOpts) := do
  let p0 ← index pubs 0
  let curve := p0.Curve
  let N : Int := pubs.length
  let es : List (Option (List Byte)) := List.replicate pubs.length none
  let s : List Int := List.replicate pubs.length 0
  if j ≥ N ∨ j < 0 then return (none, opts)
  let (r, opts) ← signSeed curve pubs j msg es s opts
  match r with
  | none => return (none, opts)
  | some (k, st) =>
    let (r, opts) ← walk curve pubs j msg pubs.length ((j + 2).tmod N) st
    match r with
    | none => return (none, opts)
    | some st =>
      let sig ← signClose curve j sk k st
      return (some sig, opts)

/-- The error of `Verify` for a scalar count different from the ring size. -/
def errCount : String := "公钥数量不等于签名数"

/-- The error of `Verify` for a chain that does not close. -/
def errInvalid : String := "非法签名"

/-- Body of the chain loop of `Verify` (lines 106-115) at loop index `i`. -/
def verifyBody (pubs : List PublicKey) (sig : RingSig) (msg : List Byte) (i : Int)
    (e1 : List Byte) (opts : SignerOpts) : Except Fault (List Byte × SignerOpts) := do
  let N : Int := pubs.length
  let p ← index pubs (i - 1)
  let (P, opts) := cScalarMult p.Curve (p.X, p.Y) e1 opts
  let s ← index sig.s (i - 1)
  let (Q, opts) := cScalarBaseMult p.Curve (Bytes s) opts
  let (P, opts) := cAdd p.Curve P Q opts
  let opts := hReset opts
  let opts := hWrite opts (Bytes P.1)
  let opts := hWrite opts (Bytes P.2)
  let opts := hWrite opts msg
  let q ← index pubs (i.tmod N)
  let opts := hWrite opts (Bytes q.X)
  let q ← index pubs (i.tmod N)
  let opts := hWrite opts (Bytes q.Y)
  return hSum opts

/-- The chain loop of `Verify`: `for i := 1; i <= N; i++`, with an iteration
budget. -/
def verifyLoop (pubs : List PublicKey) (sig : RingSig) (msg : List Byte) :
    Nat → Int → List Byte → SignerOpts → Except Fault (List Byte × SignerOpts)
  | 0, i, e1, opts =>
    if i ≤ pubs.length then .error Fault.outOfFuel else .ok (e1, opts)
  | fuel + 1, i, e1, opts =>
    if i ≤ pubs.length then
      match verifyBody pubs sig msg i e1 opts with
      | .error f => .error f
      | .ok (e1, opts) => verifyLoop pubs sig msg fuel (i + 1) e1 opts
    else .ok (e1, opts)

/-- The comparison loop of `Verify` (lines 118-124): for `i < len(e0)`, the
flag is cleared at the first `e0[i] != e1[i]`; reading `e1[i]` beyond its
length is an index fault. Both slices are walked from index 0. -/
def sameBytes : List Byte → List Byte → Except Fault Bool
  | [], _ => .ok true
  | _ :: _, [] => .error Fault.indexOutOfRange
  | a :: e0, b :: e1 => if a ≠ b then .ok false else sameBytes e0 e1

/-- Go `Verify(pubs, sig, msg, opts)`: the pair `(bool, error)`, the error
being `none` for nil. The chain loop is given `len(pubs)` iterations. -/
def Verify (pubs : List PublicKey) (sig : RingSig) (msg : List Byte) (opts : SignerOpts) :
    Except Fault ((Bool × Option String) × SignerOpts) := do
  if pubs.length ≠ sig.s.length then return ((false, some errCount), opts)
  let e0 := sig.e
  let (e1, opts) ← verifyLoop pubs sig msg pubs.length 1 e0 opts
  let flag ← sameBytes e0 e1
  if flag = true then return ((true, none), opts)
  else return ((false, some errInvalid), opts)

/-! ## Closed forms of the steps and the chain of challenges

These definitions are not in the Go source: they name the values the embedded
code computes, so that the theorems below can state them. -/

instance : Inhabited PublicKey :=
  ⟨⟨⟨0, 0, fun _ _ => (0, 0), fun _ _ => (0, 0), fun _ => (0, 0)⟩, 0, 0⟩⟩

/-- Number of bytes read by one scalar draw on the curve `c`. -/
def drawLen (c : Curve) : Nat := c.BitSize / 8 + 8

/-- The scalar that `randFieldElement` makes of the bytes `b`. -/
def scalarOf (c : Curve) (b : List Byte) : Int :=
  (SetBytes b : Int) % (c.N - 1) + 1

/-- The scalar of the `t`-th draw from the byte stream `rand`; draw 0 is the
nonce. -/
def draw (c : Curve) (rand : List Byte) (t : Nat) : Int :=
  scalarOf c ((rand.drop (t * drawLen c)).take (drawLen c))

/-- The five-part digest `H(P.x || P.y || msg || Q.x || Q.y)`. -/
def digest (h : Hash) (P : Int × Int) (msg : List Byte) (Q : PublicKey) : List Byte :=
  h.sum (Bytes P.1 ++ Bytes P.2 ++ msg ++ Bytes Q.X ++ Bytes Q.Y)

/-- The lengths read from the random stream, in order, among recorded calls. -/
def reads (cs : List Call) : List Nat :=
  cs.filterMap (fun c => match c with
    | Call.randRead n => some n
    | _ => none)

/-- The state of the walk loop after a successful iteration at index `i`,
started in state `st`. -/
def walkNext (curve : Curve) (pubs : List PublicKey) (msg : List Byte) (i : Int)
    (st : Walk) : Walk :=
  let s := scalarOf curve (st.opts.rand.take (drawLen curve))
  let P := pubs.getD (mod (i - 1) pubs.length).toNat default
  let Q := pubs.getD i.toNat default
  let K := curve.Add (curve.ScalarBaseMult (Bytes s)) (curve.ScalarMult (P.X, P.Y) st.e)
  let e := digest st.opts.h K msg Q
  { e := e
    es := st.es.set i.toNat (some e)
    s := st.s.set (mod (i - 1) pubs.length).toNat s
    opts :=
      { h := { sum := st.opts.h.sum, buf := Bytes K.1 ++ Bytes K.2 ++ msg ++ Bytes Q.X ++ Bytes Q.Y }
        rand := st.opts.rand.drop (drawLen curve)
        calls := st.opts.calls ++
          [Call.randRead (drawLen curve), Call.hashReset, Call.curveScalarBaseMult,
           Call.curveScalarMult, Call.curveAdd, Call.hashWrite (Bytes K.1),
           Call.hashWrite (Bytes K.2), Call.hashWrite msg, Call.hashWrite (Bytes Q.X),
           Call.hashWrite (Bytes Q.Y), Call.hashSum] } }

/-- Ring position of the `t`-th challenge computed by `Sign` for a signer at
index `j` in a ring of `N` keys: `(j + 1 + t) mod N`. -/
def pos (N j t : Nat) : Nat := (j + 1 + t) % N

/-- The challenges in the order `Sign` computes them: `chal 0` is the seed
`H(k*G || m || P_{j+1})` and `chal (t+1) = H(s*G + e*P || m || P')` where `s` is
draw `t+1`, `e = chal t`, `P` is the key at position `pos N j t` and `P'` the key
at position `pos N j (t+1)`. The sum is written in the argument order of the
call `curve.Add(Kx, Ky, Ex, Ey)` of `Sign`. -/
def chal (c : Curve) (pubs : List PublicKey) (j : Nat) (msg : List Byte) (h : Hash)
    (rand : List Byte) : Nat → List Byte
  | 0 =>
    digest h (c.ScalarBaseMult (Bytes (draw c rand 0))) msg
      (pubs.getD (pos pubs.length j 0) default)
  | t + 1 =>
    let P := pubs.getD (pos pubs.length j t) default
    digest h
      (c.Add (c.ScalarBaseMult (Bytes (draw c rand (t + 1))))
        (c.ScalarMult (P.X, P.Y) (chal c pubs j msg h rand t)))
      msg (pubs.getD (pos pubs.length j (t + 1)) default)

/-- Invariant of the walk loop of `Sign` after the seed and `t` iterations,
for initial options `o`. -/
structure WalkInv (c : Curve) (pubs : List PublicKey) (j : Nat) (msg : List Byte)
    (o : SignerOpts) (t : Nat) (st : Walk) : Prop where
  e_eq : st.e = chal c pubs j msg o.h o.rand t
  es_len : st.es.length = pubs.length
  s_len : st.s.length = pubs.length
  es_get : ∀ u, u ≤ t → st.es[pos pubs.length j u]? = some (some (chal c pubs j msg o.h o.rand u))
  s_get : ∀ u, u < t → st.s[pos pubs.length j u]? = some (draw c o.rand (u + 1))
  s_rest : ∀ u, t ≤ u → u < pubs.length → st.s[pos pubs.length j u]? = some 0
  sum_eq : st.opts.h.sum = o.h.sum
  rand_eq : st.opts.rand = o.rand.drop ((t + 1) * drawLen c)
  reads_eq : reads st.opts.calls = reads o.calls ++ List.replicate (t + 1) (drawLen c)

/-- The nonce and the state of `Sign` after a successful seed step (lines
53-67), started with tables `es`, `s` and options `opts`. -/
def seedNext (curve : Curve) (pubs : List PublicKey) (j : Int) (msg : List Byte)
    (es : List (Option (List Byte))) (s : List Int) (opts : SignerOpts) : Int × Walk :=
  let k := scalarOf curve (opts.rand.take (drawLen curve))
  let K := curve.ScalarBaseMult (Bytes k)
  let Q := pubs.getD ((j + 1).tmod pubs.length).toNat default
  let e := digest opts.h K msg Q
  (k,
   { e := e
     es := es.set ((j + 1).tmod pubs.length).toNat (some e)
     s := s
     opts :=
      { h := { sum := opts.h.sum, buf := Bytes K.1 ++ Bytes K.2 ++ msg ++ Bytes Q.X ++ Bytes Q.Y }
        rand := opts.rand.drop (drawLen curve)
        calls := opts.calls ++
          [Call.randRead (drawLen curve), Call.curveScalarBaseMult, Call.hashReset,
           Call.hashWrite (Bytes K.1), Call.hashWrite (Bytes K.2), Call.hashWrite msg,
           Call.hashWrite (Bytes Q.X), Call.hashWrite (Bytes Q.Y), Call.hashSum] } })

/-- The curve `Sign` works on: `pubs[0].Curve`. -/
def curveOf (pubs : List PublicKey) : Curve := (pubs.getD 0 default).Curve

/-- The result of one successful iteration of the chain loop of `Verify` at
loop index `i`, started with challenge `e1` and options `opts`. -/
def verifyNext (pubs : List PublicKey) (sig : RingSig) (msg : List Byte) (i : Int)
    (e1 : List Byte) (opts : SignerOpts) : List Byte × SignerOpts :=
  let p := pubs.getD (i - 1).toNat default
  let s := sig.s.getD (i - 1).toNat 0
  let q := pubs.getD (i.tmod pubs.length).toNat default
  let P := p.Curve.Add (p.Curve.ScalarMult (p.X, p.Y) e1) (p.Curve.ScalarBaseMult (Bytes s))
  (digest opts.h P msg q,
   { h := { sum := opts.h.sum, buf := Bytes P.1 ++ Bytes P.2 ++ msg ++ Bytes q.X ++ Bytes q.Y }
     rand := opts.rand
     calls := opts.calls ++
       [Call.curveScalarMult, Call.curveScalarBaseMult, Call.curveAdd, Call.hashReset,
        Call.hashWrite (Bytes P.1), Call.hashWrite (Bytes P.2), Call.hashWrite msg,
        Call.hashWrite (Bytes q.X), Call.hashWrite (Bytes q.Y), Call.hashSum] })

/-! ## The curve as a group -/

/-- The point `k*G` of the curve `c`, for an integer `k`: the base-point
multiple by the residue of `k` modulo the group order. -/
def mulG (c : Curve) (k : Int) : Int × Int :=
  c.ScalarBaseMult (Bytes (k % c.N))

/-- The curve `c` is a cyclic group generated by its base point `G`, of order
`c.N`, on which the operations of `c` act as the group operations:
`ScalarBaseMult(b)` is `int(b)*G`, the sum of `a*G` and `b*G` is `(a+b)*G`, and
`ScalarMult(P, e)` is `int(e)` times `P`, where `int` is the big-endian value. -/
structure CurveLaws (c : Curve) : Prop where
  base : ∀ b : List Byte, c.ScalarBaseMult b = mulG c (SetBytes b)
  add : ∀ a b : Int, c.Add (mulG c a) (mulG c b) = mulG c (a + b)
  smul : ∀ (a : Int) (e : List Byte), c.ScalarMult (mulG c a) e = mulG c ((SetBytes e : Int) * a)

/-- Index, in the order of `chal`, of the challenge that `Verify` holds after
`i` iterations of its chain loop: `(N - 1 - j + i) mod N`. -/
def tIdx (N j i : Nat) : Nat := (N - 1 - j + i) % N

/-- The challenges of `chal` with the sum written as in the specification,
`e*P + s*G`: `chalSpec 0 = H(k*G || m || P_{j+1})` and
`chalSpec (t+1) = H(e*P + s*G || m || P')`. -/
def chalSpec (c : Curve) (pubs : List PublicKey) (j : Nat) (msg : List Byte) (h : Hash)
    (rand : List Byte) : Nat → List Byte
  | 0 =>
    digest h (c.ScalarBaseMult (Bytes (draw c rand 0))) msg
      (pubs.getD (pos pubs.length j 0) default)
  | t + 1 =>
    let P := pubs.getD (pos pubs.length j t) default
    digest h
      (c.Add (c.ScalarMult (P.X, P.Y) (chalSpec c pubs j msg h rand t))
        (c.ScalarBaseMult (Bytes (draw c rand (t + 1)))))
      msg (pubs.getD (pos pubs.length j (t + 1)) default)

/-! ## Example inputs -/

/-- Example curve: the integers modulo 7 under addition, with base point 1;
the element `x` has coordinates `(x, 0)`. -/
def exCurve : Curve where
  N := 7
  BitSize := 0
  Add := fun p q => ((p.1 + q.1) % 7, 0)
  ScalarMult := fun p e => (((SetBytes e : Int) * p.1) % 7, 0)
  ScalarBaseMult := fun e => ((SetBytes e : Int) % 7, 0)

/-- Example curve of group order 1 (the trivial group). -/
def exCurveOne : Curve where
  N := 1
  BitSize := 0
  Add := fun _ _ => (0, 0)
  ScalarMult := fun _ _ => (0, 0)
  ScalarBaseMult := fun _ => (0, 0)

/-- Example hash instance with a one-byte digest, in its initial state. -/
def exHash : Hash where
  sum := fun b => [⟨(b.foldl (fun a x => a * 31 + x.val + 7) 0) % 256, Nat.mod_lt _ (by decide)⟩]
  buf := []

/-- Example public key of the secret scalar `d` on `exCurve`. -/
def exPub (d : Int) : PublicKey := ⟨exCurve, d % 7, 0⟩

/-- Example private key of the secret scalar `d` on `exCurve`. -/
def exKey (d : Int) : PrivateKey := ⟨exPub d, d⟩

/-- Example ring of three keys on `exCurve`. -/
def exRing : List PublicKey := [exPub 3, exPub 5, exPub 2]

/-- Example random stream: 24 bytes, enough for three draws on `exCurve`. -/
def exStream : List Byte :=
  [0, 0, 0, 0, 0, 0, 1, 16, 0, 0, 0, 0, 0, 0, 2, 45, 0, 0, 0, 0, 0, 0, 0, 97]

/-- Example options: the example hash and the example random stream. -/
def exOpts : SignerOpts := ⟨exHash, exStream, []⟩

/-- Example message. -/
def exMsg : List Byte := [104, 105]

/-- The challenge of ring position `p` in the chain of `Sign`: the position
`p` is reached at step `(p - j - 1) mod N` of `chal`. -/
def chalAt (c : Curve) (pubs : List PublicKey) (j : Nat) (msg : List Byte) (h : Hash)
    (rand : List Byte) (p : Nat) : List Byte :=
  chal c pubs j msg h rand (tIdx pubs.length j p)

/-! ## The chain of `Verify` as a pure function -/

/-- The challenge that iteration `i + 1` of the chain loop of `Verify` makes of
the challenge `e`: `H(e*P_i + s_i*G || m || P_{(i+1) mod N})`, computed on the
curve of `P_i` with the hash function of `h`. -/
def chainStep (pubs : List PublicKey) (sig : RingSig) (msg : List Byte) (h : Hash)
    (e : List Byte) (i : Nat) : List Byte :=
  let p := pubs.getD i default
  let s := sig.s.getD i 0
  let q := pubs.getD ((i + 1) % pubs.length) default
  digest h (p.Curve.Add (p.Curve.ScalarMult (p.X, p.Y) e) (p.Curve.ScalarBaseMult (Bytes s)))
    msg q

/-- The challenge recomputed by `Verify` after its `N` chain iterations,
started from the initial challenge of the signature. -/
def finalChallenge (pubs : List PublicKey) (sig : RingSig) (msg : List Byte) (h : Hash) :
    List Byte :=
  (List.range pubs.length).foldl (chainStep pubs sig msg h) sig.e

/-! ## The indices of the walk loop -/

/-- The loop indices of the walk loop of `Sign`, in order, for the signer `j`
in a ring of `N` keys: `(j+2) mod N, (j+3) mod N, ..., (j+N) mod N`. -/
def walkIndices (N j : Nat) : List Nat :=
  (List.range (N - 1)).map (fun t => (j + 2 + t) % N)

/-- The state after the bodies of the walk loop have run, in order, at the
loop indices `idx`, started in state `st`. -/
def walkRun (curve : Curve) (pubs : List PublicKey) (msg : List Byte) (idx : List Nat)
    (st : Walk) : Walk :=
  idx.foldl (fun (st : Walk) (i : Nat) => walkNext curve pubs msg (i : Int) st) st

/-- The state in which `Sign` enters its walk loop, after a successful seed
step on fresh tables. -/
def walkStart (pubs : List PublicKey) (j : Nat) (msg : List Byte) (opts : SignerOpts) : Walk :=
  (seedNext (curveOf pubs) pubs j msg (List.replicate pubs.length none)
    (List.replicate pubs.length 0) opts).2

/-! ## The hash calls of a record, replayed -/

/-- The five byte strings written for one digest, in order:
`P.x`, `P.y`, `msg`, `Q.x`, `Q.y`. -/
def fiveParts (P : Int × Int) (msg : List Byte) (Q : PublicKey) : List (List Byte) :=
  [Bytes P.1, Bytes P.2, msg, Bytes Q.X, Bytes Q.Y]

/-- State of a replay of recorded hash calls: `parts` lists the byte strings
written since the last reset (since the start when there was none), `fresh`
tells that a reset was replayed and that no digest was taken since, `outs`
lists, for each digest taken, the byte strings written since the last reset
before it, and `ok` is cleared by a digest taken when `fresh` is false: a
digest not preceded by a reset of its own. -/
structure HashRun where
  parts : List (List Byte)
  fresh : Bool
  outs : List (List (List Byte))
  ok : Bool

/-- One recorded call replayed: calls to the reader and the curve leave the
hash alone. -/
def hashStep (r : HashRun) : Call → HashRun
  | Call.hashReset => ⟨[], true, r.outs, r.ok⟩
  | Call.hashWrite p => ⟨r.parts ++ [p], r.fresh, r.outs, r.ok⟩
  | Call.hashSum => ⟨r.parts, false, r.outs ++ [r.parts], r.ok && r.fresh⟩
  | _ => r

/-- The replay of the recorded calls `cs`, started before any reset. -/
def hashRun (cs : List Call) : HashRun :=
  cs.foldl hashStep ⟨[], false, [], true⟩

/-- The writes `ps` made for one digest are exactly the five parts
`P.x`, `P.y`, `msg`, `Q.x`, `Q.y` of a point `P` and a key `Q` of the ring. -/
def FivePart (pubs : List PublicKey) (msg : List Byte) (ps : List (List Byte)) : Prop :=
  ∃ (P : Int × Int) (Q : PublicKey), Q ∈ pubs ∧ ps = fiveParts P msg Q

/-- In the recorded calls `cs`, every digest is taken after a reset of its own
(a reset made in `cs` after the previous digest), and the writes between that
reset and the digest are exactly five parts `P.x`, `P.y`, `msg`, `Q.x`, `Q.y`. -/
def CleanRecord (pubs : List PublicKey) (msg : List Byte) (cs : List Call) : Prop :=
  (hashRun cs).ok = true ∧ ∀ ps ∈ (hashRun cs).outs, FivePart pubs msg ps

/-- The record `cs` extends the record `c0` by calls in which every digest is
taken after a reset of its own, the writes of the digests being `outs`, in
order. -/
def Recorded (c0 : List Call) (outs : List (List (List Byte))) (cs : List Call) : Prop :=
  ∃ d, cs = c0 ++ d ∧ (hashRun d).outs = outs ∧ (hashRun d).ok = true

/-- The point hashed for the challenge `chal t` of `Sign`: `k*G` for the seed,
`s*G + e*P` afterwards. -/
def chalPoint (c : Curve) (pubs : List PublicKey) (j : Nat) (msg : List Byte) (h : Hash)
    (rand : List Byte) : Nat → Int × Int
  | 0 => c.ScalarBaseMult (Bytes (draw c rand 0))
  | t + 1 =>
    let P := pubs.getD (pos pubs.length j t) default
    c.Add (c.ScalarBaseMult (Bytes (draw c rand (t + 1))))
      (c.ScalarMult (P.X, P.Y) (chal c pubs j msg h rand t))

/-- The five byte strings hashed for the challenge `chal t` of `Sign`. -/
def chalParts (c : Curve) (pubs : List PublicKey) (j : Nat) (msg : List Byte) (h : Hash)
    (rand : List Byte) (t : Nat) : List (List Byte) :=
  fiveParts (chalPoint c pubs j msg h rand t) msg (pubs.getD (pos pubs.length j t) default)

/-- The challenge held by `Verify` after `i` iterations of its chain loop. -/
def chainAt (pubs : List PublicKey) (sig : RingSig) (msg : List Byte) (h : Hash) (i : Nat) :
    List Byte :=
  (List.range i).foldl (chainStep pubs sig msg h) sig.e

/-- The five byte strings hashed by iteration `i + 1` of the chain loop of
`Verify`: the coordinates of `e*P_i + s_i*G`, the message and the coordinates
of `P_{(i+1) mod N}`. -/
def chainParts (pubs : List PublicKey) (sig : RingSig) (msg : List Byte) (h : Hash) (i : Nat) :
    List (List Byte) :=
  let p := pubs.getD i default
  fiveParts
    (p.Curve.Add (p.Curve.ScalarMult (p.X, p.Y) (chainAt pubs sig msg h i))
      (p.Curve.ScalarBaseMult (Bytes (sig.s.getD i 0))))
    msg (pubs.getD ((i + 1) % pubs.length) default)

/-- The options `o` and `o'` have the same hash function, random stream and
record: they differ at most in the content written to the hash instance. -/
def SameButBuf (o o' : SignerOpts) : Prop :=
  o.h.sum = o'.h.sum ∧ o.rand = o'.rand ∧ o.calls = o'.calls

/-- The result of a call without the options it leaves. -/
def resultOf {α : Type} (r : Except Fault (α × SignerOpts)) : Except Fault α :=
  match r with
  | .error f => .error f
  | .ok (a, _) => .ok a

/-! ## Properties -/

/-! ### Bytes and `randFieldElement` -/

theorem foldl_bytesAux (fuel n : Nat) (acc : List Byte) (h : n ≤ fuel) :
    (bytesAux fuel n acc).foldl (fun a x => a * 256 + x.val) 0
      = acc.foldl (fun a x => a * 256 + x.val) n := by
  induction fuel generalizing n acc with
  | zero =>
    have : n = 0 := by omega
    subst this
    simp [bytesAux]
  | succ fuel ih =>
    unfold bytesAux
    split
    · next h0 => subst h0; rfl
    · next h0 =>
      rw [ih _ _ (by omega)]
      simp only [List.foldl_cons]
      congr 1
      omega

theorem SetBytes_Bytes (x : Int) : SetBytes (Bytes x) = x.natAbs := by
  unfold SetBytes Bytes
  rw [foldl_bytesAux _ _ _ (le_refl _)]
  rfl

theorem randFieldElement_eq (c : Curve) (o : SignerOpts) :
    randFieldElement c o =
      if c.BitSize / 8 + 8 ≤ o.rand.length then
        (if c.N - 1 = 0 then .error Fault.divisionByZero
         else .ok (some ((SetBytes (o.rand.take (c.BitSize / 8 + 8)) : Int) % (c.N - 1) + 1),
                { o with rand := o.rand.drop (c.BitSize / 8 + 8),
                         calls := o.calls ++ [Call.randRead (c.BitSize / 8 + 8)] }))
      else .ok (none, { o with rand := [], calls := o.calls ++ [Call.randRead (c.BitSize / 8 + 8)] }) := by
  unfold randFieldElement ReadFull one
  by_cases h : c.BitSize / 8 + 8 ≤ o.rand.length
  · simp only [h, if_true]
  · simp only [h, if_false]

/-- C6. For every group order `n >= 2` and every stream that holds the
`BitSize/8 + 8` bytes of a draw, `randFieldElement` returns a scalar `k` with
`1 <= k <= n - 1`: `k` is not 0 and is not greater than or equal to `n`. -/
theorem randFieldElement_range (c : Curve) (o : SignerOpts) (hn : 2 ≤ c.N)
    (hs : c.BitSize / 8 + 8 ≤ o.rand.length) :
    ∃ k o', randFieldElement c o = .ok (some k, o') ∧ 1 ≤ k ∧ k ≤ c.N - 1 ∧ k ≠ 0 ∧ ¬ c.N ≤ k := by
  rw [randFieldElement_eq, if_pos hs, if_neg (by omega)]
  refine ⟨_, _, rfl, ?_⟩
  have h1 : (0 : Int) < c.N - 1 := by omega
  have h2 := Int.emod_nonneg (SetBytes (o.rand.take (c.BitSize / 8 + 8)) : Int) (ne_of_gt h1)
  have h3 := Int.emod_lt_of_pos (SetBytes (o.rand.take (c.BitSize / 8 + 8)) : Int) h1
  omega

/-- C6, at the example curve of order 7 and the example stream. -/
theorem randFieldElement_range_witness :
    ∃ k o', randFieldElement exCurve exOpts = .ok (some k, o') ∧ 1 ≤ k ∧ k ≤ exCurve.N - 1 ∧
      k ≠ 0 ∧ ¬ exCurve.N ≤ k :=
  randFieldElement_range exCurve exOpts (by decide) (by decide)

/-- C7. `randFieldElement` returns the error (and no scalar) exactly when the
stream holds fewer than `BitSize/8 + 8` bytes; whenever it returns, it has made
one read, of exactly `BitSize/8 + 8` bytes; and when the stream holds that many
bytes (and the modulus `n - 1` is not zero) it returns `(B mod (n-1)) + 1`,
where `B` is the big-endian value of the bytes read, which are consumed. -/
theorem randFieldElement_spec (c : Curve) (o : SignerOpts) :
    ((∃ o', randFieldElement c o = .ok (none, o')) ↔ o.rand.length < c.BitSize / 8 + 8) ∧
    (∀ r o', randFieldElement c o = .ok (r, o') →
      o'.calls = o.calls ++ [Call.randRead (c.BitSize / 8 + 8)]) ∧
    (c.BitSize / 8 + 8 ≤ o.rand.length → c.N ≠ 1 →
      ∃ o', randFieldElement c o =
          .ok (some ((SetBytes (o.rand.take (c.BitSize / 8 + 8)) : Int) % (c.N - 1) + 1), o')
        ∧ o'.rand = o.rand.drop (c.BitSize / 8 + 8)) := by
  rw [randFieldElement_eq]
  refine ⟨?_, ?_, ?_⟩
  · constructor
    · rintro ⟨o', h⟩
      by_contra hlt
      rw [if_pos (by omega)] at h
      split at h <;> simp at h
    · intro hlt
      rw [if_neg (by omega)]
      exact ⟨_, rfl⟩
  · intro r o' h
    split at h
    · split at h
      · simp at h
      · simp only [Except.ok.injEq, Prod.mk.injEq] at h
        rw [← h.2]
    · simp only [Except.ok.injEq, Prod.mk.injEq] at h
      rw [← h.2]
  · intro hs hn
    rw [if_pos hs, if_neg (by omega)]
    exact ⟨_, rfl, rfl⟩

/-- C7, at the example curve of order 7: the first 8 bytes of the example
stream have the value 272, and the scalar is `272 mod 6 + 1 = 3`. -/
theorem randFieldElement_spec_witness :
    ∃ o', randFieldElement exCurve exOpts
        = .ok (some ((SetBytes (exOpts.rand.take (exCurve.BitSize / 8 + 8)) : Int)
            % (exCurve.N - 1) + 1), o')
      ∧ o'.rand = exOpts.rand.drop (exCurve.BitSize / 8 + 8) :=
  (randFieldElement_spec exCurve exOpts).2.2 (by decide) (by decide)

theorem errCount_ne_errInvalid : errCount ≠ errInvalid := by decide

theorem Verify_eq_of_len (pubs : List PublicKey) (sig : RingSig) (msg : List Byte)
    (opts : SignerOpts) (heq : pubs.length = sig.s.length) :
    Verify pubs sig msg opts =
      match verifyLoop pubs sig msg pubs.length 1 sig.e opts with
      | .error f => .error f
      | .ok (e1, o) =>
        match sameBytes sig.e e1 with
        | .error f => .error f
        | .ok true => .ok ((true, none), o)
        | .ok false => .ok ((false, some errInvalid), o) := by
  unfold Verify
  simp only [heq, ne_eq, not_true_eq_false, if_false, bind, Except.bind, pure, Except.pure]
  cases verifyLoop pubs sig msg sig.s.length 1 sig.e opts with
  | error f => rfl
  | ok v =>
    obtain ⟨e1, o⟩ := v
    simp only
    cases sameBytes sig.e e1 with
    | error f => rfl
    | ok b => cases b <;> simp

/-- C3. `Verify` returns `(false, count-mismatch error)` exactly when
`len(pubs) != len(sig.s)`; in that case the options come back unchanged, with
no call recorded to the hash, the reader or the curve; and the count-mismatch
error differs from the invalid-signature error. -/
theorem Verify_count_mismatch (pubs : List PublicKey) (sig : RingSig) (msg : List Byte) (opts : SignerOpts) :
    ((∃ o', Verify pubs sig msg opts = .ok ((false, some errCount), o'))
        ↔ pubs.length ≠ sig.s.length) ∧
    (pubs.length ≠ sig.s.length →
      Verify pubs sig msg opts = .ok ((false, some errCount), opts)) ∧
    errCount ≠ errInvalid := by
  have hmis : pubs.length ≠ sig.s.length →
      Verify pubs sig msg opts = .ok ((false, some errCount), opts) := by
    intro h
    unfold Verify
    simp [h, pure, Except.pure]
  refine ⟨⟨?_, fun h => ⟨opts, hmis h⟩⟩, hmis, errCount_ne_errInvalid⟩
  rintro ⟨o', h⟩ heq
  rw [Verify_eq_of_len pubs sig msg opts heq] at h
  have hne := errCount_ne_errInvalid
  split at h
  · simp at h
  · split at h
    · simp at h
    · simp at h
    · simp only [Except.ok.injEq, Prod.mk.injEq, Option.some.injEq, true_and] at h
      exact hne h.1.symm

/-- C3, at the example ring of three keys and a signature of two scalars. -/
theorem Verify_count_mismatch_witness :
    Verify exRing ⟨[255], [2, 6]⟩ exMsg exOpts = .ok ((false, some errCount), exOpts) :=
  (Verify_count_mismatch exRing ⟨[255], [2, 6]⟩ exMsg exOpts).2.1 (by decide)

/-- C4. For every ring of `N >= 1` keys and every index `j < 0` or `j >= N`,
`Sign` returns nil, and the options come back unchanged: no byte is read from
the random stream and no call is recorded to the hash. -/
theorem Sign_index_out_of_range (pubs : List PublicKey) (j : Int) (sk : PrivateKey) (msg : List Byte)
    (opts : SignerOpts) (hN : 1 ≤ pubs.length) (hj : j < 0 ∨ (pubs.length : Int) ≤ j) :
    Sign pubs j sk msg opts = .ok (none, opts) := by
  unfold Sign
  cases pubs with
  | nil => simp at hN
  | cons p ps =>
    have : j ≥ ((p :: ps).length : Int) ∨ j < 0 := by omega
    simp only [index, bind, Except.bind, pure, Except.pure, le_refl, if_true, Int.toNat_zero,
      List.getElem?_cons_zero, this]

/-- C4, at the example ring of three keys, for `j = N` and `j = -1`. -/
theorem Sign_index_out_of_range_witness :
    Sign exRing 3 (exKey 5) exMsg exOpts = .ok (none, exOpts) ∧
      Sign exRing (-1) (exKey 5) exMsg exOpts = .ok (none, exOpts) :=
  ⟨Sign_index_out_of_range exRing 3 (exKey 5) exMsg exOpts (by decide) (by decide),
   Sign_index_out_of_range exRing (-1) (exKey 5) exMsg exOpts (by decide) (by decide)⟩

/-! ### The steps of `Sign` in closed form -/

theorem index_eq {α : Type} [Inhabited α] (xs : List α) (i : Int) (h0 : 0 ≤ i)
    (h1 : i < xs.length) : index xs i = .ok (xs.getD i.toNat default) := by
  unfold index
  have h2 : i.toNat < xs.length := by omega
  simp [h0, List.getElem?_eq_getElem h2, List.getD_eq_getElem?_getD]

theorem assign_eq {α : Type} (xs : List α) (i : Int) (v : α) (h0 : 0 ≤ i)
    (h1 : i < xs.length) : assign xs i v = .ok (xs.set i.toNat v) := by
  unfold assign
  simp [h0, h1]

theorem mod_pred_bounds (i N : Int) (h0 : 0 ≤ i) (h1 : i < N) :
    0 ≤ mod (i - 1) N ∧ mod (i - 1) N < N := by
  unfold mod
  split <;> omega

theorem walkBody_eq (curve : Curve) (pubs : List PublicKey) (msg : List Byte) (i : Int)
    (st : Walk) (hi0 : 0 ≤ i) (hiN : i < pubs.length) (hs : st.s.length = pubs.length)
    (hes : st.es.length = pubs.length) (hN1 : curve.N ≠ 1) :
    walkBody curve pubs msg i st =
      if drawLen curve ≤ st.opts.rand.length then
        .ok (some (walkNext curve pubs msg i st), (walkNext curve pubs msg i st).opts)
      else
        .ok (none, { st.opts with rand := [],
                                  calls := st.opts.calls ++ [Call.randRead (drawLen curve)] }) := by
  have hm := mod_pred_bounds i pubs.length hi0 hiN
  unfold walkBody
  rw [randFieldElement_eq]
  by_cases hlen : drawLen curve ≤ st.opts.rand.length
  · have hlen' : curve.BitSize / 8 + 8 ≤ st.opts.rand.length := hlen
    have hN1' : ¬ (curve.N - 1 = 0) := by omega
    simp only [hlen, hlen', hN1', if_true, if_false, bind, Except.bind, pure, Except.pure]
    have ha1 := fun v => assign_eq st.s (mod (i - 1) pubs.length) v hm.1 (by rw [hs]; exact hm.2)
    have ha2 := fun v => assign_eq st.es i v hi0 (by rw [hes]; exact hiN)
    simp only [ha1, ha2, index_eq _ _ hm.1 hm.2, index_eq _ _ hi0 hiN]
    simp [walkNext, hReset, hWrite, hSum, cScalarBaseMult, cScalarMult, cAdd, digest,
      scalarOf, drawLen]
  · have hlen' : ¬ curve.BitSize / 8 + 8 ≤ st.opts.rand.length := hlen
    simp only [hlen, hlen', if_false, bind, Except.bind, pure, Except.pure]
    rfl

/-! ### Ring positions -/

theorem succ_mod_cases (a N : Nat) (hN : 0 < N) :
    (a + 1) % N = if a % N + 1 = N then 0 else a % N + 1 := by
  have h1 := Nat.mod_lt a hN
  have h2 := Nat.div_add_mod a N
  split
  · next h =>
    have : a + 1 = N * (a / N + 1) := by rw [Nat.mul_add, Nat.mul_one]; omega
    rw [this, Nat.mul_mod_right]
  · next h =>
    have : a + 1 = N * (a / N) + (a % N + 1) := by omega
    rw [this, Nat.mul_add_mod, Nat.mod_eq_of_lt (by omega)]

theorem pos_lt (N j t : Nat) (hN : 0 < N) : pos N j t < N := Nat.mod_lt _ hN

theorem pos_succ (N j t : Nat) (hN : 0 < N) :
    pos N j (t + 1) = if pos N j t + 1 = N then 0 else pos N j t + 1 := by
  unfold pos
  rw [← Nat.add_assoc, succ_mod_cases _ _ hN]

theorem pos_eq (N j t : Nat) (hj : j < N) (ht : t < N) :
    pos N j t = if j + 1 + t < N then j + 1 + t else j + 1 + t - N := by
  unfold pos
  split
  · next h => exact Nat.mod_eq_of_lt h
  · next h =>
    rw [Nat.mod_eq_sub_mod (by omega), Nat.mod_eq_of_lt (by omega)]

theorem pos_last (N j : Nat) (hj : j < N) : pos N j (N - 1) = j := by
  rw [pos_eq N j (N - 1) hj (by omega)]
  split <;> omega

theorem pos_zero_index (N j : Nat) (hj : j < N) : pos N j (N - 1 - j) = 0 := by
  rw [pos_eq N j (N - 1 - j) hj (by omega)]
  split <;> omega

theorem pos_inj (N j t u : Nat) (hj : j < N) (ht : t < N) (hu : u < N)
    (h : pos N j t = pos N j u) : t = u := by
  rw [pos_eq N j t hj ht, pos_eq N j u hj hu] at h
  split at h <;> split at h <;> omega

theorem pos_full (N j : Nat) : pos N j N = pos N j 0 := by
  unfold pos
  rw [Nat.add_mod_right]

theorem tmod_natCast (a : Int) (N b : Nat) (h : a = (b : Int)) :
    a.tmod (N : Int) = ((b % N : Nat) : Int) := by
  subst h
  rw [Int.tmod_eq_emod (by omega) (by omega)]
  norm_cast

theorem seed_index (N j : Nat) : ((j : Int) + 1).tmod (N : Int) = (pos N j 0 : Nat) :=
  tmod_natCast _ N (j + 1 + 0) (by push_cast; omega)

theorem start_index (N j : Nat) : ((j : Int) + 2).tmod (N : Int) = (pos N j 1 : Nat) :=
  tmod_natCast _ N (j + 1 + 1) (by push_cast; omega)

theorem next_index (N j t : Nat) (hN : 0 < N) :
    (((pos N j t : Nat) : Int) + 1).tmod (N : Int) = (pos N j (t + 1) : Nat) := by
  rw [tmod_natCast _ N (pos N j t + 1) (by push_cast; rfl)]
  congr 1
  have h2 := pos_lt N j t hN
  rw [pos_succ N j t hN]
  split
  · next h => rw [h, Nat.mod_self]
  · next h => rw [Nat.mod_eq_of_lt (by omega)]

theorem prev_index (N j t : Nat) (hN : 0 < N) :
    (mod (((pos N j (t + 1) : Nat) : Int) - 1) (N : Int)).toNat = pos N j t := by
  have h1 := pos_succ N j t hN
  have h2 := pos_lt N j t hN
  unfold mod
  split at h1 <;> split <;> omega

theorem tmod_bounds (a N : Int) (ha : 0 ≤ a) (hN : 0 < N) :
    0 ≤ a.tmod N ∧ a.tmod N < N := by
  rw [Int.tmod_eq_emod ha (le_of_lt hN)]
  exact ⟨Int.emod_nonneg _ (ne_of_gt hN), Int.emod_lt_of_pos _ hN⟩

theorem signSeed_eq (curve : Curve) (pubs : List PublicKey) (j : Int) (msg : List Byte)
    (es : List (Option (List Byte))) (s : List Int) (opts : SignerOpts)
    (hj0 : 0 ≤ j) (hjN : j < pubs.length) (hes : es.length = pubs.length)
    (hN1 : curve.N ≠ 1) :
    signSeed curve pubs j msg es s opts =
      if drawLen curve ≤ opts.rand.length then
        .ok (some (seedNext curve pubs j msg es s opts),
             (seedNext curve pubs j msg es s opts).2.opts)
      else
        .ok (none, { opts with rand := [],
                               calls := opts.calls ++ [Call.randRead (drawLen curve)] }) := by
  have hm := tmod_bounds (j + 1) pubs.length (by omega) (by omega)
  unfold signSeed
  rw [randFieldElement_eq]
  by_cases hlen : drawLen curve ≤ opts.rand.length
  · have hlen' : curve.BitSize / 8 + 8 ≤ opts.rand.length := hlen
    have hN1' : ¬ (curve.N - 1 = 0) := by omega
    simp only [hlen, hlen', hN1', if_true, if_false, bind, Except.bind, pure, Except.pure]
    have ha2 := fun v => assign_eq es ((j + 1).tmod pubs.length) v hm.1 (by rw [hes]; exact hm.2)
    simp only [ha2, index_eq _ _ hm.1 hm.2]
    simp [seedNext, hReset, hWrite, hSum, cScalarBaseMult, digest, scalarOf, drawLen]
  · have hlen' : ¬ curve.BitSize / 8 + 8 ≤ opts.rand.length := hlen
    simp only [hlen, hlen', if_false, bind, Except.bind, pure, Except.pure]
    rfl

theorem reads_append (a b : List Call) : reads (a ++ b) = reads a ++ reads b := by
  simp [reads, List.filterMap_append]

theorem digest_congr (h h' : Hash) (hs : h.sum = h'.sum) (P : Int × Int) (msg : List Byte)
    (Q : PublicKey) : digest h P msg Q = digest h' P msg Q := by
  simp [digest, hs]

theorem seedNext_inv (curve : Curve) (pubs : List PublicKey) (j : Nat) (msg : List Byte)
    (opts : SignerOpts) (hj : j < pubs.length) :
    WalkInv curve pubs j msg opts 0
      (seedNext curve pubs j msg (List.replicate pubs.length none)
        (List.replicate pubs.length 0) opts).2 := by
  have hN : 0 < pubs.length := by omega
  have hp := pos_lt pubs.length j 0 hN
  have hidx : (((j : Int) + 1).tmod pubs.length).toNat = pos pubs.length j 0 := by
    rw [seed_index]; simp
  constructor
  · simp [seedNext, chal, draw, hidx]
  · simp [seedNext]
  · simp [seedNext]
  · intro u hu
    have : u = 0 := by omega
    subst this
    simp [seedNext, chal, draw, hidx, hp]
  · intro u hu
    omega
  · intro u _ hu
    simp [seedNext, pos_lt pubs.length j u hN]
  · simp [seedNext]
  · simp [seedNext]
  · simp [seedNext, reads_append, reads]

/-! ### The walk loop -/

theorem walkNext_inv (curve : Curve) (pubs : List PublicKey) (j : Nat) (msg : List Byte)
    (o : SignerOpts) (t : Nat) (st : Walk) (hj : j < pubs.length)
    (ht : t + 1 < pubs.length) (inv : WalkInv curve pubs j msg o t st) :
    WalkInv curve pubs j msg o (t + 1)
      (walkNext curve pubs msg (pos pubs.length j (t + 1) : Nat) st) := by
  have hN : 0 < pubs.length := by omega
  have hp := pos_lt pubs.length j (t + 1) hN
  have hp' := pos_lt pubs.length j t hN
  have hprev := prev_index pubs.length j t hN
  have hdraw : scalarOf curve (List.take (drawLen curve) st.opts.rand)
      = draw curve o.rand (t + 1) := by
    rw [inv.rand_eq]; rfl
  have he : (walkNext curve pubs msg (pos pubs.length j (t + 1) : Nat) st).e
      = chal curve pubs j msg o.h o.rand (t + 1) := by
    simp only [walkNext, chal, hprev, Int.toNat_ofNat, hdraw, inv.e_eq]
    exact digest_congr _ _ inv.sum_eq _ _ _
  constructor
  · exact he
  · simp [walkNext, inv.es_len]
  · simp [walkNext, inv.s_len]
  · intro u hu
    by_cases h : u = t + 1
    · rw [h]
      have : (walkNext curve pubs msg (pos pubs.length j (t + 1) : Nat) st).es
          = st.es.set (pos pubs.length j (t + 1))
              (some (walkNext curve pubs msg (pos pubs.length j (t + 1) : Nat) st).e) := by
        simp [walkNext]
      rw [this, he, List.getElem?_set_self (by rw [inv.es_len]; exact hp)]
    · have hne : pos pubs.length j (t + 1) ≠ pos pubs.length j u := fun hh =>
        h (pos_inj _ _ _ _ hj ht (by omega) hh).symm
      have : (walkNext curve pubs msg (pos pubs.length j (t + 1) : Nat) st).es
          = st.es.set (pos pubs.length j (t + 1))
              (some (walkNext curve pubs msg (pos pubs.length j (t + 1) : Nat) st).e) := by
        simp [walkNext]
      rw [this, List.getElem?_set_ne hne]
      exact inv.es_get u (by omega)
  · intro u hu
    have hs : (walkNext curve pubs msg (pos pubs.length j (t + 1) : Nat) st).s
        = st.s.set (pos pubs.length j t) (draw curve o.rand (t + 1)) := by
      simp only [walkNext, hprev, hdraw]
    rw [hs]
    by_cases h : u = t
    · rw [h, List.getElem?_set_self (by rw [inv.s_len]; exact hp')]
    · have hne : pos pubs.length j t ≠ pos pubs.length j u := fun hh =>
        h (pos_inj _ _ _ _ hj (by omega) (by omega) hh).symm
      rw [List.getElem?_set_ne hne]
      exact inv.s_get u (by omega)
  · intro u hu huN
    have hs : (walkNext curve pubs msg (pos pubs.length j (t + 1) : Nat) st).s
        = st.s.set (pos pubs.length j t) (draw curve o.rand (t + 1)) := by
      simp only [walkNext, hprev, hdraw]
    have hne : pos pubs.length j t ≠ pos pubs.length j u := fun hh => by
      have := pos_inj _ _ _ _ hj (by omega) huN hh
      omega
    rw [hs, List.getElem?_set_ne hne]
    exact inv.s_rest u (by omega) huN
  · simp [walkNext, inv.sum_eq]
  · simp only [walkNext, inv.rand_eq, List.drop_drop]
    congr 1
    rw [Nat.add_mul (t + 1) 1, Nat.one_mul, Nat.add_comm]
  · simp only [walkNext, reads_append, inv.reads_eq, List.append_assoc]
    simp [reads, List.replicate_succ']

theorem WalkInv.rand_len {curve : Curve} {pubs : List PublicKey} {j : Nat} {msg : List Byte}
    {o : SignerOpts} {t : Nat} {st : Walk} (inv : WalkInv curve pubs j msg o t st) :
    st.opts.rand.length = o.rand.length - (t + 1) * drawLen curve := by
  rw [inv.rand_eq, List.length_drop]

theorem walk_ok (curve : Curve) (pubs : List PublicKey) (j : Nat) (msg : List Byte)
    (o : SignerOpts) (hj : j < pubs.length) (hN1 : curve.N ≠ 1)
    (hlen : pubs.length * drawLen curve ≤ o.rand.length) :
    ∀ (m t : Nat) (st : Walk) (fuel : Nat), t + m + 1 = pubs.length → m ≤ fuel →
      WalkInv curve pubs j msg o t st →
      ∃ st', walk curve pubs (j : Int) msg fuel (pos pubs.length j (t + 1) : Nat) st
          = .ok (some st', st'.opts)
        ∧ WalkInv curve pubs j msg o (pubs.length - 1) st' := by
  have hN : 0 < pubs.length := by omega
  intro m
  induction m with
  | zero =>
    intro t st fuel htm _ inv
    have ht : t + 1 = pubs.length := by omega
    have hexit : ((pos pubs.length j (t + 1) : Nat) : Int)
        = ((j : Int) + 1).tmod (pubs.length : Int) := by
      rw [seed_index, ht, pos_full]
    have ht' : t = pubs.length - 1 := by omega
    refine ⟨st, ?_, ht' ▸ inv⟩
    cases fuel <;> simp [walk, hexit]
  | succ m ih =>
    intro t st fuel htm hfuel inv
    obtain ⟨fuel, rfl⟩ : ∃ f, fuel = f + 1 := ⟨fuel - 1, by omega⟩
    have hne : ¬ ((pos pubs.length j (t + 1) : Nat) : Int)
        = ((j : Int) + 1).tmod (pubs.length : Int) := by
      rw [seed_index]
      intro hh
      have := pos_inj _ _ _ _ hj (by omega) (by omega) (Int.ofNat_inj.mp hh)
      omega
    have hdl : drawLen curve ≤ st.opts.rand.length := by
      rw [inv.rand_len]
      have : (t + 1 + 1) * drawLen curve ≤ pubs.length * drawLen curve :=
        Nat.mul_le_mul_right _ (by omega)
      rw [Nat.add_mul (t + 1) 1, Nat.one_mul] at this
      omega
    have hbody := walkBody_eq curve pubs msg (pos pubs.length j (t + 1) : Nat) st
      (by omega) (by exact_mod_cast pos_lt _ _ _ hN) inv.s_len inv.es_len hN1
    rw [if_pos hdl] at hbody
    have inv' := walkNext_inv curve pubs j msg o t st hj (by omega) inv
    obtain ⟨st', hw, hinv⟩ := ih (t + 1) _ fuel (by omega) (by omega) inv'
    refine ⟨st', ?_, hinv⟩
    rw [walk, if_neg hne, hbody]
    simp only
    rw [next_index _ _ _ hN]
    exact hw

theorem walk_short (curve : Curve) (pubs : List PublicKey) (j : Nat) (msg : List Byte)
    (o : SignerOpts) (hj : j < pubs.length) (hN1 : curve.N ≠ 1)
    (hlen : o.rand.length < pubs.length * drawLen curve) :
    ∀ (m t : Nat) (st : Walk) (fuel : Nat), t + m + 1 = pubs.length → m ≤ fuel →
      WalkInv curve pubs j msg o t st → (t + 1) * drawLen curve ≤ o.rand.length →
      ∃ o', walk curve pubs (j : Int) msg fuel (pos pubs.length j (t + 1) : Nat) st
          = .ok (none, o')
        ∧ reads o'.calls
          = reads o.calls ++ List.replicate (o.rand.length / drawLen curve + 1) (drawLen curve) := by
  have hN : 0 < pubs.length := by omega
  intro m
  induction m with
  | zero =>
    intro t st fuel htm _ inv hdone
    have ht : t + 1 = pubs.length := by omega
    rw [ht] at hdone
    omega
  | succ m ih =>
    intro t st fuel htm hfuel inv hdone
    obtain ⟨fuel, rfl⟩ : ∃ f, fuel = f + 1 := ⟨fuel - 1, by omega⟩
    have hne : ¬ ((pos pubs.length j (t + 1) : Nat) : Int)
        = ((j : Int) + 1).tmod (pubs.length : Int) := by
      rw [seed_index]
      intro hh
      have := pos_inj _ _ _ _ hj (by omega) (by omega) (Int.ofNat_inj.mp hh)
      omega
    have hbody := walkBody_eq curve pubs msg (pos pubs.length j (t + 1) : Nat) st
      (by omega) (by exact_mod_cast pos_lt _ _ _ hN) inv.s_len inv.es_len hN1
    have hmul : (t + 1 + 1) * drawLen curve = (t + 1) * drawLen curve + drawLen curve := by
      rw [Nat.add_mul (t + 1) 1, Nat.one_mul]
    by_cases hdl : drawLen curve ≤ st.opts.rand.length
    · rw [if_pos hdl] at hbody
      have inv' := walkNext_inv curve pubs j msg o t st hj (by
        by_contra hcon
        have : t + 1 = pubs.length := by omega
        rw [inv.rand_len] at hdl
        rw [← this] at hlen
        have hL : 0 < drawLen curve := by unfold drawLen; omega
        omega) inv
      have hdone' : (t + 1 + 1) * drawLen curve ≤ o.rand.length := by
        rw [inv.rand_len] at hdl
        omega
      have htm' : t + 1 + m + 1 = pubs.length := by omega
      obtain ⟨o', hw, hr⟩ := ih (t + 1) _ fuel htm' (by omega) inv' hdone'
      refine ⟨o', ?_, hr⟩
      rw [walk, if_neg hne, hbody]
      simp only
      rw [next_index _ _ _ hN]
      exact hw
    · rw [if_neg hdl] at hbody
      refine ⟨⟨st.opts.h, [], st.opts.calls ++ [Call.randRead (drawLen curve)]⟩, ?_, ?_⟩
      · rw [walk, if_neg hne, hbody]
      · have hL : 0 < drawLen curve := by unfold drawLen; omega
        have hdiv : o.rand.length / drawLen curve = t + 1 := by
          apply Nat.div_eq_of_lt_le hdone
          rw [inv.rand_len] at hdl
          omega
        simp only [reads_append, inv.reads_eq, hdiv, List.append_assoc]
        simp [reads, List.replicate_succ' (t + 1)]

theorem signClose_eq (curve : Curve) (j : Int) (sk : PrivateKey) (k : Int) (st : Walk)
    (hN0 : curve.N ≠ 0) (hj0 : 0 ≤ j) (hjN : j < st.s.length) (hes : 0 < st.es.length) :
    signClose curve j sk k st =
      .ok ⟨(st.es.getD 0 default).getD [],
           st.s.set j.toNat ((k - (SetBytes st.e : Int) * sk.D) % curve.N)⟩ := by
  unfold signClose
  simp only [hN0, if_false, bind, Except.bind, pure, Except.pure, throw, throwThe,
    MonadExceptOf.throw]
  rw [assign_eq _ _ _ hj0 hjN, index_eq _ _ (le_refl 0) (by exact_mod_cast hes)]
  rfl

/-! ### `Sign` as a whole -/

theorem Sign_eq_of_range (pubs : List PublicKey) (j : Nat) (sk : PrivateKey)
    (msg : List Byte) (opts : SignerOpts) (hj : j < pubs.length) :
    Sign pubs j sk msg opts =
      match signSeed (curveOf pubs) pubs j msg (List.replicate pubs.length none)
          (List.replicate pubs.length 0) opts with
      | .error f => .error f
      | .ok (none, o) => .ok (none, o)
      | .ok (some (k, st), _) =>
        match walk (curveOf pubs) pubs j msg pubs.length
            (((j : Int) + 2).tmod pubs.length) st with
        | .error f => .error f
        | .ok (none, o) => .ok (none, o)
        | .ok (some st, o) =>
          match signClose (curveOf pubs) j sk k st with
          | .error f => .error f
          | .ok sig => .ok (some sig, o) := by
  unfold Sign
  have h0 : index pubs 0 = .ok (pubs.getD 0 default) :=
    index_eq pubs 0 (le_refl 0) (by exact_mod_cast (by omega : 0 < pubs.length))
  have hc : ¬ ((j : Int) ≥ pubs.length ∨ (j : Int) < 0) := by omega
  simp only [h0, hc, if_false, bind, Except.bind, pure, Except.pure]
  rw [show (pubs.getD 0 default).Curve = curveOf pubs from rfl]
  cases signSeed (curveOf pubs) pubs j msg (List.replicate pubs.length none)
      (List.replicate pubs.length 0) opts with
  | error f => rfl
  | ok v =>
    obtain ⟨r, o⟩ := v
    cases r with
    | none => rfl
    | some ks =>
      obtain ⟨k, st⟩ := ks
      simp only
      cases walk (curveOf pubs) pubs j msg pubs.length (((j : Int) + 2).tmod pubs.length) st with
      | error f => rfl
      | ok v =>
        obtain ⟨r, o⟩ := v
        cases r with
        | none => rfl
        | some st' =>
          simp only
          cases signClose (curveOf pubs) j sk k st' <;> rfl

theorem Sign_run (pubs : List PublicKey) (j : Nat) (sk : PrivateKey) (msg : List Byte)
    (opts : SignerOpts) (hj : j < pubs.length) (hN1 : (curveOf pubs).N ≠ 1)
    (hlen : pubs.length * drawLen (curveOf pubs) ≤ opts.rand.length) :
    ∃ st0 st, WalkInv (curveOf pubs) pubs j msg opts (pubs.length - 1) st ∧
      signSeed (curveOf pubs) pubs j msg (List.replicate pubs.length none)
          (List.replicate pubs.length 0) opts
        = .ok (some (draw (curveOf pubs) opts.rand 0, st0), st0.opts) ∧
      walk (curveOf pubs) pubs j msg pubs.length (((j : Int) + 2).tmod pubs.length) st0
        = .ok (some st, st.opts) ∧
      Sign pubs j sk msg opts =
        match signClose (curveOf pubs) j sk (draw (curveOf pubs) opts.rand 0) st with
        | .error f => .error f
        | .ok sig => .ok (some sig, st.opts) := by
  have hN : 0 < pubs.length := by omega
  have hL : drawLen (curveOf pubs) ≤ opts.rand.length := by
    have : 1 * drawLen (curveOf pubs) ≤ pubs.length * drawLen (curveOf pubs) :=
      Nat.mul_le_mul_right _ hN
    omega
  have hseed := signSeed_eq (curveOf pubs) pubs j msg (List.replicate pubs.length none)
    (List.replicate pubs.length 0) opts (by omega) (by exact_mod_cast hj) (by simp) hN1
  rw [if_pos hL] at hseed
  have hk : (seedNext (curveOf pubs) pubs j msg (List.replicate pubs.length none)
      (List.replicate pubs.length 0) opts).1 = draw (curveOf pubs) opts.rand 0 := by
    simp [seedNext, draw]
  have hseed' : signSeed (curveOf pubs) pubs j msg (List.replicate pubs.length none)
      (List.replicate pubs.length 0) opts
      = .ok (some (draw (curveOf pubs) opts.rand 0,
          (seedNext (curveOf pubs) pubs j msg (List.replicate pubs.length none)
            (List.replicate pubs.length 0) opts).2),
          (seedNext (curveOf pubs) pubs j msg (List.replicate pubs.length none)
            (List.replicate pubs.length 0) opts).2.opts) := by
    rw [hseed, ← hk]
  have inv0 := seedNext_inv (curveOf pubs) pubs j msg opts hj
  obtain ⟨st, hw, inv⟩ := walk_ok (curveOf pubs) pubs j msg opts hj hN1 hlen
    (pubs.length - 1) 0 _ pubs.length (by omega) (by omega) inv0
  rw [← start_index] at hw
  refine ⟨_, st, inv, hseed', hw, ?_⟩
  rw [Sign_eq_of_range pubs j sk msg opts hj, hseed']
  simp only
  rw [hw]

theorem Sign_ok (pubs : List PublicKey) (j : Nat) (sk : PrivateKey) (msg : List Byte)
    (opts : SignerOpts) (hj : j < pubs.length) (hN0 : (curveOf pubs).N ≠ 0)
    (hN1 : (curveOf pubs).N ≠ 1)
    (hlen : pubs.length * drawLen (curveOf pubs) ≤ opts.rand.length) :
    ∃ st, WalkInv (curveOf pubs) pubs j msg opts (pubs.length - 1) st ∧
      Sign pubs j sk msg opts =
        .ok (some ⟨chal (curveOf pubs) pubs j msg opts.h opts.rand (pubs.length - 1 - j),
                   st.s.set j ((draw (curveOf pubs) opts.rand 0
                     - (SetBytes (chal (curveOf pubs) pubs j msg opts.h opts.rand
                         (pubs.length - 1)) : Int) * sk.D) % (curveOf pubs).N)⟩,
             st.opts) := by
  have hN : 0 < pubs.length := by omega
  obtain ⟨st0, st, inv, _, _, hsign⟩ := Sign_run pubs j sk msg opts hj hN1 hlen
  refine ⟨st, inv, ?_⟩
  have hclose := signClose_eq (curveOf pubs) j sk (draw (curveOf pubs) opts.rand 0) st hN0
    (by omega) (by rw [inv.s_len]; exact_mod_cast hj) (by rw [inv.es_len]; exact hN)
  have hes0 := inv.es_get (pubs.length - 1 - j) (by omega)
  rw [pos_zero_index _ _ hj] at hes0
  rw [hsign, hclose]
  simp only [List.getD_eq_getElem?_getD, hes0, Option.getD_some, inv.e_eq, Int.toNat_ofNat]

theorem Sign_short (pubs : List PublicKey) (j : Nat) (sk : PrivateKey) (msg : List Byte)
    (opts : SignerOpts) (hj : j < pubs.length) (hN1 : (curveOf pubs).N ≠ 1)
    (hlen : opts.rand.length < pubs.length * drawLen (curveOf pubs)) :
    ∃ o', Sign pubs j sk msg opts = .ok (none, o') ∧
      reads o'.calls = reads opts.calls ++
        List.replicate (opts.rand.length / drawLen (curveOf pubs) + 1)
          (drawLen (curveOf pubs)) := by
  have hN : 0 < pubs.length := by omega
  have hseed := signSeed_eq (curveOf pubs) pubs j msg (List.replicate pubs.length none)
    (List.replicate pubs.length 0) opts (by omega) (by exact_mod_cast hj) (by simp) hN1
  rw [Sign_eq_of_range pubs j sk msg opts hj, hseed]
  by_cases hL : drawLen (curveOf pubs) ≤ opts.rand.length
  · rw [if_pos hL]
    have inv0 := seedNext_inv (curveOf pubs) pubs j msg opts hj
    obtain ⟨o', hw, hr⟩ := walk_short (curveOf pubs) pubs j msg opts hj hN1 hlen
      (pubs.length - 1) 0 _ pubs.length (by omega) (by omega) inv0 (by omega)
    refine ⟨o', ?_, hr⟩
    simp only
    rw [start_index, hw]
  · rw [if_neg hL]
    refine ⟨_, rfl, ?_⟩
    have : opts.rand.length / drawLen (curveOf pubs) = 0 := Nat.div_eq_of_lt (by omega)
    simp [this, reads_append, reads]

/-! ### The chain of `Verify` -/

theorem verifyBody_eq (pubs : List PublicKey) (sig : RingSig) (msg : List Byte) (i : Int)
    (e1 : List Byte) (opts : SignerOpts) (hi1 : 1 ≤ i) (hiN : i ≤ pubs.length)
    (hs : sig.s.length = pubs.length) :
    verifyBody pubs sig msg i e1 opts = .ok (verifyNext pubs sig msg i e1 opts) := by
  have hm := tmod_bounds i pubs.length (by omega) (by omega)
  unfold verifyBody
  have h1 : index pubs (i - 1) = .ok (pubs.getD (i - 1).toNat default) :=
    index_eq _ _ (by omega) (by omega)
  have h2 : index sig.s (i - 1) = .ok (sig.s.getD (i - 1).toNat 0) :=
    index_eq _ _ (by omega) (by rw [hs]; omega)
  simp only [h1, h2, index_eq _ _ hm.1 hm.2, bind, Except.bind, pure, Except.pure]
  simp [verifyNext, hReset, hWrite, hSum, cScalarBaseMult, cScalarMult, cAdd, digest]

theorem sameBytes_self (e : List Byte) : sameBytes e e = .ok true := by
  induction e with
  | nil => rfl
  | cons a e ih => simp [sameBytes, ih]

theorem mulG_congr (c : Curve) (a b : Int) (h : a % c.N = b % c.N) : mulG c a = mulG c b := by
  unfold mulG
  rw [h]

theorem getD_mem {α : Type} [Inhabited α] (xs : List α) (i : Nat) (h : i < xs.length) :
    xs.getD i default ∈ xs := by
  rw [List.getD_eq_getElem _ _ h]
  exact List.getElem_mem h

theorem curveOf_eq (pubs : List PublicKey) (c : Curve) (hc : ∀ p ∈ pubs, p.Curve = c)
    (hN : 0 < pubs.length) : curveOf pubs = c :=
  hc _ (getD_mem pubs 0 hN)

theorem base_of_nonneg (c : Curve) (laws : CurveLaws c) (x : Int) (hx : 0 ≤ x) :
    c.ScalarBaseMult (Bytes x) = mulG c x := by
  rw [laws.base, SetBytes_Bytes]
  congr 1
  omega

theorem add_comm_on_group (c : Curve) (laws : CurveLaws c) (a : Int) (e b : List Byte) :
    c.Add (c.ScalarMult (mulG c a) e) (c.ScalarBaseMult b)
      = c.Add (c.ScalarBaseMult b) (c.ScalarMult (mulG c a) e) := by
  rw [laws.base, laws.smul, laws.add, laws.add, Int.add_comm]

theorem close_point (c : Curve) (laws : CurveLaws c) (hn : 2 ≤ c.N) (d k : Int)
    (hk : 0 ≤ k) (e : List Byte) :
    c.Add (c.ScalarMult (mulG c d) e)
        (c.ScalarBaseMult (Bytes ((k - (SetBytes e : Int) * d) % c.N)))
      = c.ScalarBaseMult (Bytes k) := by
  have hs : 0 ≤ (k - (SetBytes e : Int) * d) % c.N := Int.emod_nonneg _ (by omega)
  rw [base_of_nonneg c laws _ hs, base_of_nonneg c laws _ hk, laws.smul, laws.add]
  apply mulG_congr
  rw [Int.add_emod, Int.emod_emod, ← Int.add_emod]
  congr 1
  ring

theorem draw_pos (c : Curve) (rand : List Byte) (t : Nat) (hn : 2 ≤ c.N) :
    1 ≤ draw c rand t ∧ draw c rand t ≤ c.N - 1 := by
  unfold draw scalarOf
  have h1 : (0 : Int) < c.N - 1 := by omega
  have h2 := Int.emod_nonneg
    (SetBytes ((rand.drop (t * drawLen c)).take (drawLen c)) : Int) (ne_of_gt h1)
  have h3 := Int.emod_lt_of_pos
    (SetBytes ((rand.drop (t * drawLen c)).take (drawLen c)) : Int) h1
  omega

theorem pos_tIdx (N j i : Nat) (hj : j < N) (hi : i < N) : pos N j (tIdx N j i) = i := by
  unfold pos tIdx
  rw [Nat.add_mod_mod, show j + 1 + (N - 1 - j + i) = N + i by omega, Nat.add_mod_left,
    Nat.mod_eq_of_lt hi]

theorem tIdx_succ (N j i : Nat) (hN : 0 < N) :
    tIdx N j (i + 1) = if tIdx N j i + 1 = N then 0 else tIdx N j i + 1 := by
  unfold tIdx
  rw [← Nat.add_assoc, succ_mod_cases _ _ hN]

theorem tIdx_zero (N j : Nat) (hj : j < N) : tIdx N j 0 = N - 1 - j := by
  unfold tIdx
  rw [Nat.add_zero, Nat.mod_eq_of_lt (by omega)]

theorem tIdx_full (N j : Nat) (hj : j < N) : tIdx N j N = N - 1 - j := by
  unfold tIdx
  rw [Nat.add_mod_right, Nat.mod_eq_of_lt (by omega)]

theorem tIdx_lt (N j i : Nat) (hN : 0 < N) : tIdx N j i < N := Nat.mod_lt _ hN

theorem chain_step (c : Curve) (laws : CurveLaws c) (hn : 2 ≤ c.N) (pubs : List PublicKey)
    (j : Nat) (msg : List Byte) (h : Hash) (rand : List Byte) (d : Int) (ss : List Int)
    (hj : j < pubs.length)
    (hc : ∀ p ∈ pubs, p.Curve = c)
    (hring : ∀ p ∈ pubs, ∃ a : Int, (p.X, p.Y) = mulG c a)
    (hkey : ((pubs.getD j default).X, (pubs.getD j default).Y) = mulG c d)
    (hfree : ∀ u, u + 1 < pubs.length → ss[pos pubs.length j u]? = some (draw c rand (u + 1)))
    (hclose : ss[j]? = some ((draw c rand 0
      - (SetBytes (chal c pubs j msg h rand (pubs.length - 1)) : Int) * d) % c.N))
    (i : Nat) (hi : i < pubs.length) :
    digest h
      ((pubs.getD i default).Curve.Add
        ((pubs.getD i default).Curve.ScalarMult
          ((pubs.getD i default).X, (pubs.getD i default).Y)
          (chal c pubs j msg h rand (tIdx pubs.length j i)))
        ((pubs.getD i default).Curve.ScalarBaseMult (Bytes (ss.getD i 0))))
      msg (pubs.getD ((i + 1) % pubs.length) default)
    = chal c pubs j msg h rand (tIdx pubs.length j (i + 1)) := by
  have hN : 0 < pubs.length := by omega
  have hci := hc _ (getD_mem pubs i hi)
  have hpos := pos_tIdx pubs.length j i hj hi
  have ht := tIdx_lt pubs.length j i hN
  have hnext : (i + 1) % pubs.length = pos pubs.length j (tIdx pubs.length j i + 1) := by
    rw [pos_succ _ _ _ hN, hpos, succ_mod_cases _ _ hN, Nat.mod_eq_of_lt hi]
  rw [hci, tIdx_succ _ _ _ hN]
  split
  · next hlast =>
    have hij : i = j := by
      rw [← hpos, show tIdx pubs.length j i = pubs.length - 1 by omega, pos_last _ _ hj]
    have hfull : pos pubs.length j (tIdx pubs.length j i + 1) = pos pubs.length j 0 := by
      rw [hlast, pos_full]
    have hs : ss.getD i 0 = (draw c rand 0
        - (SetBytes (chal c pubs j msg h rand (pubs.length - 1)) : Int) * d) % c.N := by
      rw [hij, List.getD_eq_getElem?_getD, hclose, Option.getD_some]
    rw [hnext, hfull, hs, show tIdx pubs.length j i = pubs.length - 1 by omega, hij, hkey,
      close_point c laws hn d _ (by have := (draw_pos c rand 0 hn).1; omega)]
    rfl
  · next hmid =>
    obtain ⟨a, ha⟩ := hring _ (getD_mem pubs i hi)
    have hs : ss.getD i 0 = draw c rand (tIdx pubs.length j i + 1) := by
      have := hfree (tIdx pubs.length j i) (by omega)
      rw [hpos] at this
      rw [List.getD_eq_getElem?_getD, this, Option.getD_some]
    rw [hnext, hs, ha, add_comm_on_group c laws]
    simp only [chal, hpos, ha]

theorem verifyLoop_closes (c : Curve) (laws : CurveLaws c) (hn : 2 ≤ c.N)
    (pubs : List PublicKey) (j : Nat) (msg : List Byte) (h : Hash) (rand : List Byte)
    (d : Int) (sig : RingSig) (hj : j < pubs.length)
    (hc : ∀ p ∈ pubs, p.Curve = c)
    (hring : ∀ p ∈ pubs, ∃ a : Int, (p.X, p.Y) = mulG c a)
    (hkey : ((pubs.getD j default).X, (pubs.getD j default).Y) = mulG c d)
    (hslen : sig.s.length = pubs.length)
    (hfree : ∀ u, u + 1 < pubs.length →
      sig.s[pos pubs.length j u]? = some (draw c rand (u + 1)))
    (hclose : sig.s[j]? = some ((draw c rand 0
      - (SetBytes (chal c pubs j msg h rand (pubs.length - 1)) : Int) * d) % c.N)) :
    ∀ (m i : Nat) (vo : SignerOpts), i + m = pubs.length → vo.h.sum = h.sum →
      ∃ vo', verifyLoop pubs sig msg m ((i : Int) + 1)
          (chal c pubs j msg h rand (tIdx pubs.length j i)) vo
        = .ok (chal c pubs j msg h rand (tIdx pubs.length j pubs.length), vo')
        ∧ vo'.h.sum = h.sum := by
  intro m
  induction m with
  | zero =>
    intro i vo him hsum
    have : i = pubs.length := by omega
    subst this
    refine ⟨vo, ?_, hsum⟩
    have : ¬ ((pubs.length : Int) + 1 ≤ pubs.length) := by omega
    simp [verifyLoop, this]
  | succ m ih =>
    intro i vo him hsum
    have hi : i < pubs.length := by omega
    have hle : ((i : Int) + 1 ≤ pubs.length) := by omega
    have hbody := verifyBody_eq pubs sig msg ((i : Int) + 1)
      (chal c pubs j msg h rand (tIdx pubs.length j i)) vo (by omega) hle hslen
    have hstep := chain_step c laws hn pubs j msg h rand d sig.s hj hc hring hkey hfree
      hclose i hi
    have hidx : ((i : Int) + 1 - 1).toNat = i := by omega
    have hnext : (((i : Int) + 1).tmod pubs.length).toNat = (i + 1) % pubs.length := by
      rw [tmod_natCast _ pubs.length (i + 1) (by push_cast; rfl)]
      exact Int.toNat_ofNat _
    have hval : (verifyNext pubs sig msg ((i : Int) + 1)
        (chal c pubs j msg h rand (tIdx pubs.length j i)) vo).1
        = chal c pubs j msg h rand (tIdx pubs.length j (i + 1)) := by
      rw [← hstep]
      simp only [verifyNext, hidx, hnext]
      exact digest_congr _ _ hsum _ _ _
    have hsum' : (verifyNext pubs sig msg ((i : Int) + 1)
        (chal c pubs j msg h rand (tIdx pubs.length j i)) vo).2.h.sum = h.sum := by
      simp [verifyNext, hsum]
    obtain ⟨vo', hw, hs'⟩ := ih (i + 1) _ (by omega) hsum'
    refine ⟨vo', ?_, hs'⟩
    rw [verifyLoop, if_pos hle, hbody]
    simp only
    rw [hval]
    have : ((i : Int) + 1 + 1) = (((i + 1 : Nat) : Int) + 1) := by push_cast; rfl
    rw [this]
    exact hw

/-- C1. Completeness: on a curve that is a cyclic group generated by its base
point (`CurveLaws`) with group order at least 2, for every ring of `N >= 1`
keys of that group on that curve, every index `0 <= j < N` whose key is `d*G`
for the private scalar `d`, every message, every hash function and every
random stream holding the bytes of `N` draws, `Sign` returns a signature, and
`Verify` with the same hash function (whatever its written state, in
particular with the options left by `Sign`) returns `(true, nil)` on it. -/
theorem Sign_Verify_complete (c : Curve) (pubs : List PublicKey) (j : Nat) (sk : PrivateKey)
    (msg : List Byte) (opts : SignerOpts) (laws : CurveLaws c) (hn : 2 ≤ c.N)
    (hj : j < pubs.length)
    (hc : ∀ p ∈ pubs, p.Curve = c)
    (hring : ∀ p ∈ pubs, ∃ a : Int, (p.X, p.Y) = mulG c a)
    (hkey : ((pubs.getD j default).X, (pubs.getD j default).Y) = mulG c sk.D)
    (hlen : pubs.length * drawLen c ≤ opts.rand.length) :
    ∃ sig o', Sign pubs j sk msg opts = .ok (some sig, o') ∧ o'.h.sum = opts.h.sum ∧
      ∀ vo : SignerOpts, vo.h.sum = opts.h.sum →
        ∃ vo', Verify pubs sig msg vo = .ok ((true, none), vo') := by
  have hN : 0 < pubs.length := by omega
  have hcv := curveOf_eq pubs c hc hN
  obtain ⟨st, inv, hsign⟩ := Sign_ok pubs j sk msg opts hj (by rw [hcv]; omega)
    (by rw [hcv]; omega) (by rw [hcv]; exact hlen)
  rw [hcv] at inv hsign
  refine ⟨_, _, hsign, inv.sum_eq, ?_⟩
  intro vo hvo
  have hjs : j < st.s.length := by rw [inv.s_len]; exact hj
  have hslen : (st.s.set j ((draw c opts.rand 0
      - (SetBytes (chal c pubs j msg opts.h opts.rand (pubs.length - 1)) : Int) * sk.D)
        % c.N)).length = pubs.length := by
    rw [List.length_set, inv.s_len]
  obtain ⟨vo', hloop, _⟩ := verifyLoop_closes c laws hn pubs j msg opts.h opts.rand sk.D
    ⟨chal c pubs j msg opts.h opts.rand (pubs.length - 1 - j),
     st.s.set j ((draw c opts.rand 0
      - (SetBytes (chal c pubs j msg opts.h opts.rand (pubs.length - 1)) : Int) * sk.D)
        % c.N)⟩ hj hc hring hkey hslen
    (by
      intro u hu
      have hne : j ≠ pos pubs.length j u := by
        intro hh
        have := pos_inj _ _ _ _ hj (by omega : pubs.length - 1 < pubs.length) (by omega)
          ((pos_last _ _ hj).trans hh)
        omega
      simp only
      rw [List.getElem?_set_ne hne]
      exact inv.s_get u (by omega))
    (by
      simp only
      rw [List.getElem?_set_self hjs])
    pubs.length 0 vo (by omega) hvo
  refine ⟨vo', ?_⟩
  rw [Verify_eq_of_len _ _ _ _ hslen.symm]
  simp only
  rw [tIdx_zero _ _ hj, tIdx_full _ _ hj] at hloop
  have h01 : ((0 : Nat) : Int) + 1 = 1 := by simp
  rw [h01] at hloop
  rw [hloop]
  simp only
  rw [sameBytes_self]

theorem chal_is_digest (c : Curve) (pubs : List PublicKey) (j : Nat) (msg : List Byte)
    (h : Hash) (rand : List Byte) (t : Nat) :
    ∃ b, chal c pubs j msg h rand t = h.sum b := by
  cases t with
  | zero => exact ⟨_, rfl⟩
  | succ t => exact ⟨_, rfl⟩

theorem chal_eq_chalSpec (c : Curve) (pubs : List PublicKey) (j : Nat) (msg : List Byte)
    (h : Hash) (rand : List Byte) (hcomm : ∀ p q, c.Add p q = c.Add q p) (t : Nat) :
    chal c pubs j msg h rand t = chalSpec c pubs j msg h rand t := by
  induction t with
  | zero => rfl
  | succ t ih => simp only [chal, chalSpec, ih, hcomm]

theorem Sign_some_stream (pubs : List PublicKey) (j : Nat) (sk : PrivateKey)
    (msg : List Byte) (opts : SignerOpts) (hj : j < pubs.length)
    (hN1 : (curveOf pubs).N ≠ 1) (sig : RingSig) (o' : SignerOpts)
    (hsig : Sign pubs j sk msg opts = .ok (some sig, o')) :
    pubs.length * drawLen (curveOf pubs) ≤ opts.rand.length := by
  by_contra hlt
  obtain ⟨o'', h, _⟩ := Sign_short pubs j sk msg opts hj hN1 (by omega)
  rw [h] at hsig
  simp at hsig

theorem Sign_order_one (pubs : List PublicKey) (j : Nat) (sk : PrivateKey)
    (msg : List Byte) (opts : SignerOpts) (hj : j < pubs.length)
    (hN1 : (curveOf pubs).N = 1) (sig : RingSig) (o' : SignerOpts) :
    Sign pubs j sk msg opts ≠ .ok (some sig, o') := by
  rw [Sign_eq_of_range pubs j sk msg opts hj]
  unfold signSeed
  rw [randFieldElement_eq]
  by_cases hl : (curveOf pubs).BitSize / 8 + 8 ≤ opts.rand.length
  · simp [hN1, hl, bind, Except.bind, one]
  · simp [hN1, hl, bind, Except.bind, pure, Except.pure, one]

/-! ### The example curve -/

theorem exCurve_mulG (a : Int) : mulG exCurve a = (a % 7, 0) := by
  unfold mulG
  show ((SetBytes (Bytes (a % 7)) : Int) % 7, (0 : Int)) = (a % 7, 0)
  rw [SetBytes_Bytes]
  have h := Int.emod_nonneg a (by decide : (7 : Int) ≠ 0)
  have : (((a % 7).natAbs : Nat) : Int) = a % 7 := by omega
  rw [this, Int.emod_emod]

theorem exCurve_laws : CurveLaws exCurve := by
  constructor
  · intro b
    rw [exCurve_mulG]
    rfl
  · intro a b
    rw [exCurve_mulG, exCurve_mulG, exCurve_mulG]
    show ((a % 7 + b % 7) % 7, (0 : Int)) = ((a + b) % 7, 0)
    rw [← Int.add_emod]
  · intro a e
    rw [exCurve_mulG, exCurve_mulG]
    show (((SetBytes e : Int) * (a % 7)) % 7, (0 : Int)) = (((SetBytes e : Int) * a) % 7, 0)
    rw [Int.mul_emod, Int.emod_emod, ← Int.mul_emod]

theorem exRing_curve : ∀ p ∈ exRing, p.Curve = exCurve := by
  intro p hp
  simp only [exRing, List.mem_cons, List.mem_singleton, List.not_mem_nil, or_false] at hp
  rcases hp with rfl | rfl | rfl <;> rfl

theorem exRing_group : ∀ p ∈ exRing, ∃ a : Int, (p.X, p.Y) = mulG exCurve a := by
  intro p hp
  simp only [exRing, List.mem_cons, List.mem_singleton, List.not_mem_nil, or_false] at hp
  rcases hp with rfl | rfl | rfl
  · exact ⟨3, (exCurve_mulG 3).symm⟩
  · exact ⟨5, (exCurve_mulG 5).symm⟩
  · exact ⟨2, (exCurve_mulG 2).symm⟩

/-- C1, at the example ring: signer 1 of `exRing` with secret scalar 5. -/
theorem Sign_Verify_complete_witness :
    ∃ sig o', Sign exRing (1 : Nat) (exKey 5) exMsg exOpts = .ok (some sig, o') ∧
      o'.h.sum = exOpts.h.sum ∧
      ∀ vo : SignerOpts, vo.h.sum = exOpts.h.sum →
        ∃ vo', Verify exRing sig exMsg vo = .ok ((true, none), vo') :=
  Sign_Verify_complete exCurve exRing 1 (exKey 5) exMsg exOpts exCurve_laws (by decide)
    (by decide) exRing_curve exRing_group (exCurve_mulG 5).symm (by decide)

/-- C2, evaluated at a signature with an empty initial challenge: the chain of
`Verify` ends in the digest `[189]`, which is not the initial challenge `[]`,
and `Verify` returns `(true, nil)`. -/
theorem Verify_accepts_empty_challenge :
    ∃ e1 o', verifyLoop exRing ⟨[], [1, 2, 3]⟩ exMsg 3 1 [] exOpts = .ok (e1, o') ∧
      e1 ≠ [] ∧
      Verify exRing ⟨[], [1, 2, 3]⟩ exMsg exOpts = .ok ((true, none), o') :=
  ⟨[189], _, rfl, by decide, rfl⟩

theorem prev_mod (N i : Nat) (hi : i < N) :
    (i + N - 1) % N = if i = 0 then N - 1 else i - 1 := by
  split
  · next h =>
    subst h
    rw [Nat.zero_add, Nat.mod_eq_of_lt (by omega)]
  · next h =>
    rw [show i + N - 1 = i - 1 + N by omega, Nat.add_mod_right, Nat.mod_eq_of_lt (by omega)]

theorem tIdx_mod (N j a : Nat) : tIdx N j (a % N) = tIdx N j a := by
  unfold tIdx
  rw [Nat.add_mod_mod]

theorem tIdx_prev (N j i : Nat) (hj : j < N) (hi : i < N) (hne : i ≠ (j + 1) % N) :
    tIdx N j i = tIdx N j ((i + N - 1) % N) + 1 := by
  have hN : 0 < N := by omega
  have hq := prev_mod N i hi
  have hqN : (i + N - 1) % N < N := Nat.mod_lt _ hN
  have hi' : i = ((i + N - 1) % N + 1) % N := by
    rw [hq]
    split
    · next h => rw [show N - 1 + 1 = N by omega, Nat.mod_self, h]
    · next h => rw [show i - 1 + 1 = i by omega, Nat.mod_eq_of_lt hi]
  have hs := tIdx_succ N j ((i + N - 1) % N) hN
  rw [← tIdx_mod, ← hi'] at hs
  split at hs
  · next hlast =>
    exfalso
    apply hne
    have := pos_tIdx N j i hj hi
    rw [hs] at this
    rw [← this]
    rfl
  · exact hs

/-! ### Draws, well-formedness, initial challenge and closing scalar -/

/-- C5. For a ring of `N >= 1` keys, `0 <= j < N` and a group order other
than 0 and 1: each draw reads `BitSize/8 + 8` bytes; when the stream holds the
bytes of `N` draws, `Sign` returns a signature after exactly `N` reads, the
first draw being the nonce and draw `u+1` the scalar of position
`(j+1+u) mod N`; when it does not, `Sign` returns nil right after the first
failed read (read number `len/L + 1 <= N`); so a signature is returned exactly
when all `N` draws succeed. -/
theorem Sign_draws (pubs : List PublicKey) (j : Nat) (sk : PrivateKey) (msg : List Byte)
    (opts : SignerOpts) (hj : j < pubs.length) (hN0 : (curveOf pubs).N ≠ 0)
    (hN1 : (curveOf pubs).N ≠ 1) :
    drawLen (curveOf pubs) = (curveOf pubs).BitSize / 8 + 8 ∧
    (pubs.length * drawLen (curveOf pubs) ≤ opts.rand.length →
      ∃ sig o', Sign pubs j sk msg opts = .ok (some sig, o') ∧
        reads o'.calls
          = reads opts.calls ++ List.replicate pubs.length (drawLen (curveOf pubs)) ∧
        o'.rand = opts.rand.drop (pubs.length * drawLen (curveOf pubs)) ∧
        (∀ u, u + 1 < pubs.length →
          sig.s[pos pubs.length j u]? = some (draw (curveOf pubs) opts.rand (u + 1))) ∧
        sig.s[j]? = some ((draw (curveOf pubs) opts.rand 0
          - (SetBytes (chal (curveOf pubs) pubs j msg opts.h opts.rand (pubs.length - 1)) : Int)
            * sk.D) % (curveOf pubs).N)) ∧
    (opts.rand.length < pubs.length * drawLen (curveOf pubs) →
      ∃ o', Sign pubs j sk msg opts = .ok (none, o') ∧
        reads o'.calls = reads opts.calls ++
          List.replicate (opts.rand.length / drawLen (curveOf pubs) + 1)
            (drawLen (curveOf pubs)) ∧
        opts.rand.length / drawLen (curveOf pubs) + 1 ≤ pubs.length) ∧
    ((∃ sig o', Sign pubs j sk msg opts = .ok (some sig, o'))
      ↔ pubs.length * drawLen (curveOf pubs) ≤ opts.rand.length) := by
  have hN : 0 < pubs.length := by omega
  have hok : pubs.length * drawLen (curveOf pubs) ≤ opts.rand.length →
      ∃ sig o', Sign pubs j sk msg opts = .ok (some sig, o') ∧
        reads o'.calls
          = reads opts.calls ++ List.replicate pubs.length (drawLen (curveOf pubs)) ∧
        o'.rand = opts.rand.drop (pubs.length * drawLen (curveOf pubs)) ∧
        (∀ u, u + 1 < pubs.length →
          sig.s[pos pubs.length j u]? = some (draw (curveOf pubs) opts.rand (u + 1))) ∧
        sig.s[j]? = some ((draw (curveOf pubs) opts.rand 0
          - (SetBytes (chal (curveOf pubs) pubs j msg opts.h opts.rand (pubs.length - 1)) : Int)
            * sk.D) % (curveOf pubs).N) := by
    intro hlen
    obtain ⟨st, inv, hsign⟩ := Sign_ok pubs j sk msg opts hj hN0 hN1 hlen
    have hN' : pubs.length - 1 + 1 = pubs.length := by omega
    refine ⟨_, _, hsign, ?_, ?_, ?_, ?_⟩
    · rw [inv.reads_eq, hN']
    · rw [inv.rand_eq, hN']
    · intro u hu
      have hne : j ≠ pos pubs.length j u := by
        intro hh
        have := pos_inj _ _ _ _ hj (by omega : pubs.length - 1 < pubs.length) (by omega)
          ((pos_last _ _ hj).trans hh)
        omega
      simp only
      rw [List.getElem?_set_ne hne]
      exact inv.s_get u (by omega)
    · simp only
      rw [List.getElem?_set_self (by rw [inv.s_len]; exact hj)]
  refine ⟨rfl, hok, ?_, ?_⟩
  · intro hlen
    obtain ⟨o', h, hr⟩ := Sign_short pubs j sk msg opts hj hN1 hlen
    refine ⟨o', h, hr, ?_⟩
    have hL : 0 < drawLen (curveOf pubs) := by unfold drawLen; omega
    exact (Nat.div_lt_iff_lt_mul hL).mpr hlen
  · constructor
    · rintro ⟨sig, o', h⟩
      exact Sign_some_stream pubs j sk msg opts hj hN1 sig o' h
    · intro hlen
      obtain ⟨sig, o', h, _⟩ := hok hlen
      exact ⟨sig, o', h⟩

/-- C5, at the example ring: three keys, signer 1, a stream of 24 bytes. -/
theorem Sign_draws_witness :
    ∃ sig o', Sign exRing (1 : Nat) (exKey 5) exMsg exOpts = .ok (some sig, o') ∧
      reads o'.calls = reads exOpts.calls ++ List.replicate 3 8 ∧
      o'.rand = exOpts.rand.drop (3 * 8) ∧
      (∀ u, u + 1 < 3 → sig.s[pos 3 1 u]? = some (draw exCurve exStream (u + 1))) ∧
      sig.s[1]? = some ((draw exCurve exStream 0
        - (SetBytes (chal exCurve exRing 1 exMsg exHash exStream 2) : Int) * 5) % 7) :=
  (Sign_draws exRing 1 (exKey 5) exMsg exOpts (by decide) (by decide) (by decide)).2.1
    (by decide)

/-- C8. Every signature returned by `Sign` for a ring of `N >= 1` keys,
`0 <= j < N` and group order `n >= 2` is well-formed: it has `N` scalars, its
initial challenge is a digest of the hash (of the digest length when the hash
has one, hence non-empty when that length is positive), the scalar at every
position `p` other than `j` is the scalar drawn for it (draw number
`((p - j - 1) mod N) + 1`) and lies in `[1, n-1]`, and the scalar at position
`j` lies in `[0, n-1]`. -/
theorem Sign_wellformed (pubs : List PublicKey) (j : Nat) (sk : PrivateKey) (msg : List Byte)
    (opts : SignerOpts) (sig : RingSig) (o' : SignerOpts) (hj : j < pubs.length)
    (hn : 2 ≤ (curveOf pubs).N)
    (hsig : Sign pubs j sk msg opts = .ok (some sig, o')) :
    sig.s.length = pubs.length ∧
    (∃ b, sig.e = opts.h.sum b) ∧
    (∀ size, (∀ b, (opts.h.sum b).length = size) →
      sig.e.length = size ∧ (0 < size → sig.e ≠ [])) ∧
    (∀ p, p < pubs.length → p ≠ j →
      sig.s[p]? = some (draw (curveOf pubs) opts.rand (tIdx pubs.length j p + 1)) ∧
      1 ≤ draw (curveOf pubs) opts.rand (tIdx pubs.length j p + 1) ∧
      draw (curveOf pubs) opts.rand (tIdx pubs.length j p + 1) ≤ (curveOf pubs).N - 1) ∧
    (∃ x, sig.s[j]? = some x ∧ 0 ≤ x ∧ x ≤ (curveOf pubs).N - 1) := by
  have hN : 0 < pubs.length := by omega
  have hN1 : (curveOf pubs).N ≠ 1 := by omega
  have hlen := Sign_some_stream pubs j sk msg opts hj hN1 sig o' hsig
  obtain ⟨st, inv, hsign⟩ := Sign_ok pubs j sk msg opts hj (by omega) hN1 hlen
  rw [hsign] at hsig
  simp only [Except.ok.injEq, Prod.mk.injEq, Option.some.injEq] at hsig
  obtain ⟨hsig, _⟩ := hsig
  subst hsig
  obtain ⟨b, hb⟩ := chal_is_digest (curveOf pubs) pubs j msg opts.h opts.rand
    (pubs.length - 1 - j)
  refine ⟨?_, ⟨b, hb⟩, ?_, ?_, ?_⟩
  · simp only [List.length_set, inv.s_len]
  · intro size hsize
    simp only
    rw [hb]
    refine ⟨hsize b, fun hpos hnil => ?_⟩
    have := hsize b
    rw [hnil] at this
    simp at this
    omega
  · intro p hp hpj
    have hpos := pos_tIdx pubs.length j p hj hp
    have ht := tIdx_lt pubs.length j p hN
    have hlt : tIdx pubs.length j p < pubs.length - 1 := by
      by_contra hcon
      have : tIdx pubs.length j p = pubs.length - 1 := by omega
      rw [this, pos_last _ _ hj] at hpos
      exact hpj hpos.symm
    refine ⟨?_, draw_pos _ _ _ hn⟩
    simp only
    rw [List.getElem?_set_ne (fun h => hpj h.symm)]
    have := inv.s_get (tIdx pubs.length j p) hlt
    rw [hpos] at this
    exact this
  · refine ⟨(draw (curveOf pubs) opts.rand 0
        - (SetBytes (chal (curveOf pubs) pubs j msg opts.h opts.rand (pubs.length - 1)) : Int)
          * sk.D) % (curveOf pubs).N, ?_, ?_, ?_⟩
    · simp only
      rw [List.getElem?_set_self (by rw [inv.s_len]; exact hj)]
    · exact Int.emod_nonneg _ (by omega)
    · have := Int.emod_lt_of_pos (draw (curveOf pubs) opts.rand 0
        - (SetBytes (chal (curveOf pubs) pubs j msg opts.h opts.rand (pubs.length - 1)) : Int)
          * sk.D) (by omega : (0 : Int) < (curveOf pubs).N)
      omega

/-- C8, at the example ring: signer 1 of `exRing` gets the signature with
initial challenge `[255]` and scalars `[2, 6, 6]`. -/
theorem Sign_wellformed_witness :
    ∃ o', Sign exRing (1 : Nat) (exKey 5) exMsg exOpts = .ok (some ⟨[255], [2, 6, 6]⟩, o') ∧
      ([2, 6, 6] : List Int).length = exRing.length ∧
      (∃ b, ([255] : List Byte) = exHash.sum b) ∧
      (∃ x, ([2, 6, 6] : List Int)[1]? = some x ∧ 0 ≤ x ∧ x ≤ 7 - 1) :=
  ⟨_, rfl,
    (Sign_wellformed exRing 1 (exKey 5) exMsg exOpts ⟨[255], [2, 6, 6]⟩ _ (by decide)
      (by decide) rfl).1,
    (Sign_wellformed exRing 1 (exKey 5) exMsg exOpts ⟨[255], [2, 6, 6]⟩ _ (by decide)
      (by decide) rfl).2.1,
    (Sign_wellformed exRing 1 (exKey 5) exMsg exOpts ⟨[255], [2, 6, 6]⟩ _ (by decide)
      (by decide) rfl).2.2.2.2⟩

/-- C9. For `N >= 1`, `0 <= j < N`, a group order other than 0 and 1 and a
stream holding `N` draws, the initial challenge of the signature returned by
`Sign` is the challenge `c_0` of ring position 0, whatever `j`, where the
challenges `c_p = chalAt p` satisfy
`c_{(j+1) mod N} = H(k*G || m || P_{(j+1) mod N})` and, for every other
position `i`, `c_i = H(s*G + c*P || m || P_i)` with `s` the scalar of the
signature, `c` the challenge and `P` the key at position `(i-1) mod N` (the sum
in the argument order of the code). In the order of computation `c_0` is
`chal` number `N-1-j`. The slot `es[0]` holds it (it is not nil) when the walk
ends; for `j = N-1` it is `H(k*G || m || P_0)`; and on a curve with a
commutative `Add` it is the chain of the specification, written `e*P + s*G`. -/
theorem Sign_initial_challenge (pubs : List PublicKey) (j : Nat) (sk : PrivateKey)
    (msg : List Byte) (opts : SignerOpts) (hj : j < pubs.length)
    (hN0 : (curveOf pubs).N ≠ 0) (hN1 : (curveOf pubs).N ≠ 1)
    (hlen : pubs.length * drawLen (curveOf pubs) ≤ opts.rand.length) :
    ∃ sig o', Sign pubs j sk msg opts = .ok (some sig, o') ∧
      sig.e = chalAt (curveOf pubs) pubs j msg opts.h opts.rand 0 ∧
      chalAt (curveOf pubs) pubs j msg opts.h opts.rand ((j + 1) % pubs.length)
        = digest opts.h
            ((curveOf pubs).ScalarBaseMult (Bytes (draw (curveOf pubs) opts.rand 0))) msg
            (pubs.getD ((j + 1) % pubs.length) default) ∧
      (∀ i, i < pubs.length → i ≠ (j + 1) % pubs.length →
        chalAt (curveOf pubs) pubs j msg opts.h opts.rand i
          = digest opts.h
              ((curveOf pubs).Add
                ((curveOf pubs).ScalarBaseMult
                  (Bytes (sig.s.getD ((i + pubs.length - 1) % pubs.length) 0)))
                ((curveOf pubs).ScalarMult
                  ((pubs.getD ((i + pubs.length - 1) % pubs.length) default).X,
                   (pubs.getD ((i + pubs.length - 1) % pubs.length) default).Y)
                  (chalAt (curveOf pubs) pubs j msg opts.h opts.rand
                    ((i + pubs.length - 1) % pubs.length))))
              msg (pubs.getD i default)) ∧
      sig.e = chal (curveOf pubs) pubs j msg opts.h opts.rand (pubs.length - 1 - j) ∧
      (∃ st0 st, signSeed (curveOf pubs) pubs j msg (List.replicate pubs.length none)
            (List.replicate pubs.length 0) opts
          = .ok (some (draw (curveOf pubs) opts.rand 0, st0), st0.opts) ∧
        walk (curveOf pubs) pubs j msg pubs.length (((j : Int) + 2).tmod pubs.length) st0
          = .ok (some st, o') ∧
        st.es[0]? = some (some sig.e)) ∧
      (j + 1 = pubs.length →
        sig.e = digest opts.h
          ((curveOf pubs).ScalarBaseMult (Bytes (draw (curveOf pubs) opts.rand 0))) msg
          (pubs.getD 0 default)) ∧
      ((∀ p q, (curveOf pubs).Add p q = (curveOf pubs).Add q p) →
        sig.e = chalSpec (curveOf pubs) pubs j msg opts.h opts.rand (pubs.length - 1 - j)) := by
  have hN : 0 < pubs.length := by omega
  obtain ⟨st0, st, inv, hseed, hwalk, hsign⟩ := Sign_run pubs j sk msg opts hj hN1 hlen
  have hclose := signClose_eq (curveOf pubs) j sk (draw (curveOf pubs) opts.rand 0) st hN0
    (by omega) (by rw [inv.s_len]; exact_mod_cast hj) (by rw [inv.es_len]; exact hN)
  have hes0 := inv.es_get (pubs.length - 1 - j) (by omega)
  have hp0 := pos_zero_index pubs.length j hj
  rw [hp0] at hes0
  rw [hclose] at hsign
  simp only [List.getD_eq_getElem?_getD, hes0, Option.getD_some, inv.e_eq,
    Int.toNat_ofNat] at hsign
  have hfree : ∀ u, u + 1 < pubs.length →
      (st.s.set j ((draw (curveOf pubs) opts.rand 0
        - (SetBytes (chal (curveOf pubs) pubs j msg opts.h opts.rand (pubs.length - 1)) : Int)
          * sk.D) % (curveOf pubs).N))[pos pubs.length j u]?
        = some (draw (curveOf pubs) opts.rand (u + 1)) := by
    intro u hu
    have hne : j ≠ pos pubs.length j u := by
      intro hh
      have := pos_inj _ _ _ _ hj (by omega : pubs.length - 1 < pubs.length) (by omega)
        ((pos_last _ _ hj).trans hh)
      omega
    rw [List.getElem?_set_ne hne]
    exact inv.s_get u (by omega)
  refine ⟨_, _, hsign, ?_, ?_, ?_, rfl, ⟨st0, st, hseed, hwalk, hes0⟩, ?_, ?_⟩
  · simp only [chalAt, tIdx_zero _ _ hj]
  · have h0 : tIdx pubs.length j ((j + 1) % pubs.length) = 0 := by
      have hlt : (j + 1) % pubs.length < pubs.length := Nat.mod_lt _ hN
      have h1 := pos_tIdx pubs.length j ((j + 1) % pubs.length) hj hlt
      exact pos_inj _ _ _ _ hj (tIdx_lt _ _ _ hN) hN h1
    simp only [chalAt, h0, chal]
    rfl
  · intro i hi hne
    have hqN : (i + pubs.length - 1) % pubs.length < pubs.length := Nat.mod_lt _ hN
    have hprev := tIdx_prev pubs.length j i hj hi hne
    have hti := tIdx_lt pubs.length j i hN
    have hposq := pos_tIdx pubs.length j ((i + pubs.length - 1) % pubs.length) hj hqN
    have hposi := pos_tIdx pubs.length j i hj hi
    have hs := hfree (tIdx pubs.length j ((i + pubs.length - 1) % pubs.length)) (by omega)
    rw [hposq] at hs
    rw [hprev] at hposi
    simp only [chalAt, hprev, chal, hposq, hposi, List.getD_eq_getElem?_getD, hs,
      Option.getD_some]
  · intro hlast
    have h0 : pubs.length - 1 - j = 0 := by omega
    simp only
    rw [h0] at hp0 ⊢
    simp only [chal, hp0]
  · intro hcomm
    exact chal_eq_chalSpec _ _ _ _ _ _ hcomm _

/-- C9, at the example ring with the signer at the last index 2. -/
theorem Sign_initial_challenge_witness :
    ∃ sig o', Sign exRing (2 : Nat) (exKey 2) exMsg exOpts = .ok (some sig, o') ∧
      sig.e = chal exCurve exRing 2 exMsg exHash exStream 0 ∧
      sig.e = digest exHash (exCurve.ScalarBaseMult (Bytes (draw exCurve exStream 0))) exMsg
        (exPub 3) := by
  obtain ⟨sig, o', h, _, _, _, he, _, hlast, _⟩ :=
    Sign_initial_challenge exRing 2 (exKey 2) exMsg exOpts (by decide) (by decide)
      (by decide) (by decide)
  exact ⟨sig, o', h, he, hlast rfl⟩

/-- C10. For `N >= 1`, `0 <= j < N` and group order `n >= 1`, every signature
returned by `Sign` has `scalars[j] = (k - E*d) mod n`, where `k` is the nonce
(draw 0), `d = sk.D` and `E` the big-endian value of the challenge number `N-1`
of the chain, which is the challenge of position `j` (for `N = 1` the seed
challenge `H(k*G || m || P_0)`); the residue is the Euclidean one, in
`[0, n-1]`. Such a signature is returned when `n >= 2` and the stream holds
`N` draws. -/
theorem Sign_closing_scalar (pubs : List PublicKey) (j : Nat) (sk : PrivateKey)
    (msg : List Byte) (opts : SignerOpts) (hj : j < pubs.length)
    (hn : 1 ≤ (curveOf pubs).N) :
    (∀ sig o', Sign pubs j sk msg opts = .ok (some sig, o') →
      sig.s[j]? = some ((draw (curveOf pubs) opts.rand 0
        - (SetBytes (chal (curveOf pubs) pubs j msg opts.h opts.rand (pubs.length - 1)) : Int)
          * sk.D) % (curveOf pubs).N)) ∧
    (0 ≤ (draw (curveOf pubs) opts.rand 0
        - (SetBytes (chal (curveOf pubs) pubs j msg opts.h opts.rand (pubs.length - 1)) : Int)
          * sk.D) % (curveOf pubs).N ∧
      (draw (curveOf pubs) opts.rand 0
        - (SetBytes (chal (curveOf pubs) pubs j msg opts.h opts.rand (pubs.length - 1)) : Int)
          * sk.D) % (curveOf pubs).N < (curveOf pubs).N) ∧
    pos pubs.length j (pubs.length - 1) = j ∧
    (pubs.length = 1 →
      chal (curveOf pubs) pubs j msg opts.h opts.rand (pubs.length - 1)
        = digest opts.h
            ((curveOf pubs).ScalarBaseMult (Bytes (draw (curveOf pubs) opts.rand 0))) msg
            (pubs.getD 0 default)) ∧
    (2 ≤ (curveOf pubs).N → pubs.length * drawLen (curveOf pubs) ≤ opts.rand.length →
      ∃ sig o', Sign pubs j sk msg opts = .ok (some sig, o')) := by
  have hN : 0 < pubs.length := by omega
  refine ⟨?_, ⟨Int.emod_nonneg _ (by omega), Int.emod_lt_of_pos _ (by omega)⟩,
    pos_last _ _ hj, ?_, ?_⟩
  · intro sig o' hsig
    have hN1 : (curveOf pubs).N ≠ 1 := fun h1 =>
      Sign_order_one pubs j sk msg opts hj h1 sig o' hsig
    have hlen := Sign_some_stream pubs j sk msg opts hj hN1 sig o' hsig
    obtain ⟨st, inv, hsign⟩ := Sign_ok pubs j sk msg opts hj (by omega) hN1 hlen
    rw [hsign] at hsig
    simp only [Except.ok.injEq, Prod.mk.injEq, Option.some.injEq] at hsig
    obtain ⟨hsig, _⟩ := hsig
    subst hsig
    simp only
    rw [List.getElem?_set_self (by rw [inv.s_len]; exact hj)]
  · intro h1
    have hj0 : j = 0 := by omega
    subst hj0
    have hp : pos 1 0 0 = 0 := rfl
    simp only [h1, Nat.sub_self, chal, hp]
  · intro hn2 hlen
    obtain ⟨st, _, hsign⟩ := Sign_ok pubs j sk msg opts hj (by omega) (by omega) hlen
    exact ⟨_, _, hsign⟩

/-- C10, at the example ring: signer 1 of `exRing` with secret scalar 5. -/
theorem Sign_closing_scalar_witness :
    ([2, 6, 6] : List Int)[1]? = some ((draw exCurve exStream 0
        - (SetBytes (chal exCurve exRing 1 exMsg exHash exStream 2) : Int) * 5) % 7) ∧
      ∃ sig o', Sign exRing (1 : Nat) (exKey 5) exMsg exOpts = .ok (some sig, o') :=
  ⟨(Sign_closing_scalar exRing 1 (exKey 5) exMsg exOpts (by decide) (by decide)).1
      ⟨[255], [2, 6, 6]⟩ _ rfl,
    (Sign_closing_scalar exRing 1 (exKey 5) exMsg exOpts (by decide) (by decide)).2.2.2.2
      (by decide) (by decide)⟩

/-! ### The helper `mod`, the empty ring -/

/-- C19, as stated, fails: `mod(-4, 3) = -1` is negative and `mod(3, 3) = 3`
is not below `N = 3`. -/
theorem mod_not_a_modulo :
    mod (-4) 3 = -1 ∧ ¬ (0 ≤ mod (-4) 3 ∧ mod (-4) 3 < 3) ∧
      mod 3 3 = 3 ∧ ¬ (0 ≤ mod 3 3 ∧ mod 3 3 < 3) := by
  decide

/-- C19, amended. For every `N >= 1` and every integer `x` with
`-N <= x < N`, `mod(x, N)` lies in `[0, N)`, is congruent to `x` modulo `N`,
and is the Euclidean remainder of `x` by `N`. -/
theorem mod_of_one_wrap (x N : Int) (_hN : 1 ≤ N) (hlo : -N ≤ x) (hhi : x < N) :
    0 ≤ mod x N ∧ mod x N < N ∧ N ∣ mod x N - x ∧ mod x N = x % N := by
  unfold mod
  split
  · next h =>
    refine ⟨by omega, by omega, ⟨1, by ring⟩, ?_⟩
    rw [← Int.add_emod_self, Int.emod_eq_of_lt (by omega) (by omega)]
  · next h =>
    refine ⟨by omega, by omega, ⟨0, by ring⟩, ?_⟩
    rw [Int.emod_eq_of_lt (by omega) (by omega)]

/-- C19, amended, at `x = -1`, `N = 5`, the call made by `Sign` at `i = 0`. -/
theorem mod_of_one_wrap_witness :
    0 ≤ mod (-1) 5 ∧ mod (-1) 5 < 5 ∧ (5 : Int) ∣ mod (-1) 5 - (-1) ∧ mod (-1) 5 = (-1) % 5 :=
  mod_of_one_wrap (-1) 5 (by decide) (by decide) (by decide)

/-- C17. For the empty ring `Sign` faults at `pubs[0]`, whatever the signer
index: it does not return nil. -/
theorem Sign_empty_ring (j : Int) (sk : PrivateKey) (msg : List Byte) (opts : SignerOpts) :
    Sign [] j sk msg opts = .error Fault.indexOutOfRange := by
  rfl

/-- C15. For the empty ring and a signature with no scalar, `Verify` returns
`(true, nil)` for every message and every initial challenge: the chain loop
returns the initial challenge at once, and the options come back unchanged,
with no call recorded to the hash or the curve. -/
theorem Verify_empty_ring (e : List Byte) (msg : List Byte) (opts : SignerOpts) :
    verifyLoop [] ⟨e, []⟩ msg 0 1 e opts = .ok (e, opts) ∧
      Verify [] ⟨e, []⟩ msg opts = .ok ((true, none), opts) := by
  have h1 : verifyLoop [] ⟨e, []⟩ msg 0 1 e opts = .ok (e, opts) := by
    simp [verifyLoop]
  refine ⟨h1, ?_⟩
  rw [Verify_eq_of_len _ _ _ _ rfl]
  simp only [List.length_nil]
  rw [h1]
  simp only
  rw [sameBytes_self]

/-! ### The chain of `Verify` in closed form, the comparison loop -/

theorem verifyLoop_eq (pubs : List PublicKey) (sig : RingSig) (msg : List Byte) (h : Hash)
    (hslen : sig.s.length = pubs.length) :
    ∀ (m i : Nat) (e : List Byte) (o : SignerOpts), i + m = pubs.length → o.h.sum = h.sum →
      ∃ o', verifyLoop pubs sig msg m ((i : Int) + 1) e o
          = .ok ((List.range' i m).foldl (chainStep pubs sig msg h) e, o')
        ∧ o'.h.sum = h.sum ∧ o'.rand = o.rand := by
  intro m
  induction m with
  | zero =>
    intro i e o him hsum
    have : ¬ ((i : Int) + 1 ≤ pubs.length) := by omega
    exact ⟨o, by simp [verifyLoop, this], hsum, rfl⟩
  | succ m ih =>
    intro i e o him hsum
    have hle : ((i : Int) + 1 ≤ pubs.length) := by omega
    have hbody := verifyBody_eq pubs sig msg ((i : Int) + 1) e o (by omega) hle hslen
    have hidx : ((i : Int) + 1 - 1).toNat = i := by omega
    have hnext : (((i : Int) + 1).tmod pubs.length).toNat = (i + 1) % pubs.length := by
      rw [tmod_natCast _ pubs.length (i + 1) (by push_cast; rfl)]
      exact Int.toNat_ofNat _
    have hval : (verifyNext pubs sig msg ((i : Int) + 1) e o).1
        = chainStep pubs sig msg h e i := by
      simp only [verifyNext, chainStep, hidx, hnext]
      exact digest_congr _ _ hsum _ _ _
    have hsum' : (verifyNext pubs sig msg ((i : Int) + 1) e o).2.h.sum = h.sum := by
      simp [verifyNext, hsum]
    have hrand' : (verifyNext pubs sig msg ((i : Int) + 1) e o).2.rand = o.rand := by
      simp [verifyNext]
    obtain ⟨o', hw, hs', hr'⟩ := ih (i + 1) (chainStep pubs sig msg h e i)
      (verifyNext pubs sig msg ((i : Int) + 1) e o).2 (by omega) hsum'
    refine ⟨o', ?_, hs', hr'.trans hrand'⟩
    rw [verifyLoop, if_pos hle, hbody]
    simp only
    rw [hval, List.range'_succ, List.foldl_cons]
    have : ((i : Int) + 1 + 1) = (((i + 1 : Nat) : Int) + 1) := by push_cast; rfl
    rw [this]
    exact hw

theorem verifyLoop_final (pubs : List PublicKey) (sig : RingSig) (msg : List Byte)
    (o : SignerOpts) (hslen : sig.s.length = pubs.length) :
    ∃ o', verifyLoop pubs sig msg pubs.length 1 sig.e o
        = .ok (finalChallenge pubs sig msg o.h, o') ∧ o'.h.sum = o.h.sum ∧ o'.rand = o.rand := by
  obtain ⟨o', h, hs, hr⟩ := verifyLoop_eq pubs sig msg o.h hslen pubs.length 0 sig.e o
    (by omega) rfl
  refine ⟨o', ?_, hs, hr⟩
  have h01 : ((0 : Nat) : Int) + 1 = 1 := by simp
  rw [h01] at h
  rw [h, finalChallenge, List.range_eq_range']

theorem finalChallenge_is_digest (pubs : List PublicKey) (sig : RingSig) (msg : List Byte)
    (h : Hash) (hN : 1 ≤ pubs.length) :
    ∃ b, finalChallenge pubs sig msg h = h.sum b := by
  obtain ⟨n, hn⟩ : ∃ n, pubs.length = n + 1 := ⟨pubs.length - 1, by omega⟩
  unfold finalChallenge
  rw [hn, List.range_succ, List.foldl_append]
  exact ⟨_, rfl⟩

theorem sameBytes_true_iff (e0 e1 : List Byte) :
    sameBytes e0 e1 = .ok true ↔ ∃ t, e1 = e0 ++ t := by
  induction e0 generalizing e1 with
  | nil => simp [sameBytes]
  | cons a e0 ih =>
    cases e1 with
    | nil => simp [sameBytes]
    | cons b e1 =>
      by_cases hab : a = b
      · subst hab
        simp [sameBytes, ih]
      · simp only [sameBytes, ne_eq, hab, not_false_eq_true, if_true, Except.ok.injEq,
          Bool.false_eq_true, List.cons_append, List.cons.injEq, false_iff, not_exists, not_and]
        intro t hba
        exact absurd hba.symm hab

theorem sameBytes_total (e0 e1 : List Byte) (hlen : e0.length ≤ e1.length) :
    sameBytes e0 e1 = .ok true ∨ sameBytes e0 e1 = .ok false := by
  induction e0 generalizing e1 with
  | nil => left; rfl
  | cons a e0 ih =>
    cases e1 with
    | nil => simp at hlen
    | cons b e1 =>
      by_cases hab : a = b
      · subst hab
        simpa [sameBytes] using ih e1 (by simpa using hlen)
      · right
        simp [sameBytes, hab]

/-! ### Prefix comparison of `Verify`, the ring of one key -/

/-- C14. For a signature whose scalar count is the ring size, `Verify`
returns `(true, nil)` exactly when the initial challenge is an initial segment
of the recomputed final challenge; when the ring has `N >= 1` keys and the
initial challenge is no longer than the digest length, it returns
`(false, invalid-signature)` otherwise; in particular an empty initial
challenge is accepted for every ring, every scalars and every message. -/
theorem Verify_compares_initial_segment (pubs : List PublicKey) (sig : RingSig)
    (msg : List Byte) (opts : SignerOpts) (hs : sig.s.length = pubs.length) :
    ((∃ o', Verify pubs sig msg opts = .ok ((true, none), o'))
      ↔ ∃ t, finalChallenge pubs sig msg opts.h = sig.e ++ t) ∧
    (∀ size, 1 ≤ pubs.length → (∀ b, (opts.h.sum b).length = size) →
      sig.e.length ≤ size → (¬ ∃ t, finalChallenge pubs sig msg opts.h = sig.e ++ t) →
      ∃ o', Verify pubs sig msg opts = .ok ((false, some errInvalid), o')) ∧
    (sig.e = [] → ∃ o', Verify pubs sig msg opts = .ok ((true, none), o')) := by
  obtain ⟨o', hloop, _, _⟩ := verifyLoop_final pubs sig msg opts hs
  have hV := Verify_eq_of_len pubs sig msg opts hs.symm
  rw [hloop] at hV
  simp only at hV
  have hiff : (∃ o', Verify pubs sig msg opts = .ok ((true, none), o'))
      ↔ ∃ t, finalChallenge pubs sig msg opts.h = sig.e ++ t := by
    rw [← sameBytes_true_iff]
    constructor
    · rintro ⟨o'', h⟩
      rw [hV] at h
      split at h
      · simp at h
      · next heq => exact heq
      · simp at h
    · intro h
      rw [hV, h]
      exact ⟨o', rfl⟩
  refine ⟨hiff, ?_, ?_⟩
  · intro size hN hsize he hnot
    obtain ⟨b, hb⟩ := finalChallenge_is_digest pubs sig msg opts.h hN
    have hlen : sig.e.length ≤ (finalChallenge pubs sig msg opts.h).length := by
      rw [hb, hsize b]
      exact he
    rcases sameBytes_total _ _ hlen with h | h
    · exact absurd ((sameBytes_true_iff _ _).mp h) hnot
    · rw [hV, h]
      exact ⟨o', rfl⟩
  · intro he
    exact hiff.mpr ⟨finalChallenge pubs sig msg opts.h, by rw [he]; rfl⟩

/-- C14, at the example ring: the empty initial challenge is accepted, and
the initial challenge `[7]`, which is not an initial segment of the final
challenge `[189]`, is rejected. -/
theorem Verify_compares_initial_segment_witness :
    (∃ o', Verify exRing ⟨[], [1, 2, 3]⟩ exMsg exOpts = .ok ((true, none), o')) ∧
      (∃ o', Verify exRing ⟨[7], [1, 2, 3]⟩ exMsg exOpts
        = .ok ((false, some errInvalid), o')) :=
  ⟨(Verify_compares_initial_segment exRing ⟨[], [1, 2, 3]⟩ exMsg exOpts rfl).2.2 rfl,
   (Verify_compares_initial_segment exRing ⟨[7], [1, 2, 3]⟩ exMsg exOpts rfl).2.1 1
      (by decide) (fun _ => rfl) (by decide) (by
        rintro ⟨t, ht⟩
        have h : finalChallenge exRing ⟨[7], [1, 2, 3]⟩ exMsg exOpts.h = [189] := rfl
        rw [h] at ht
        simp at ht)⟩

theorem Sign_Verify_explicit (c : Curve) (pubs : List PublicKey) (j : Nat) (sk : PrivateKey)
    (msg : List Byte) (opts : SignerOpts) (laws : CurveLaws c) (hn : 2 ≤ c.N)
    (hj : j < pubs.length)
    (hc : ∀ p ∈ pubs, p.Curve = c)
    (hring : ∀ p ∈ pubs, ∃ a : Int, (p.X, p.Y) = mulG c a)
    (hkey : ((pubs.getD j default).X, (pubs.getD j default).Y) = mulG c sk.D)
    (hlen : pubs.length * drawLen c ≤ opts.rand.length) :
    ∃ st, WalkInv c pubs j msg opts (pubs.length - 1) st ∧
      Sign pubs j sk msg opts =
        .ok (some ⟨chal c pubs j msg opts.h opts.rand (pubs.length - 1 - j),
                   st.s.set j ((draw c opts.rand 0
                     - (SetBytes (chal c pubs j msg opts.h opts.rand (pubs.length - 1)) : Int)
                       * sk.D) % c.N)⟩, st.opts) ∧
      ∀ vo : SignerOpts, vo.h.sum = opts.h.sum →
        ∃ vo', Verify pubs
          ⟨chal c pubs j msg opts.h opts.rand (pubs.length - 1 - j),
           st.s.set j ((draw c opts.rand 0
             - (SetBytes (chal c pubs j msg opts.h opts.rand (pubs.length - 1)) : Int)
               * sk.D) % c.N)⟩ msg vo = .ok ((true, none), vo') := by
  have hN : 0 < pubs.length := by omega
  have hcv := curveOf_eq pubs c hc hN
  obtain ⟨st, inv, hsign⟩ := Sign_ok pubs j sk msg opts hj (by rw [hcv]; omega)
    (by rw [hcv]; omega) (by rw [hcv]; exact hlen)
  rw [hcv] at inv hsign
  refine ⟨st, inv, hsign, ?_⟩
  intro vo hvo
  have hjs : j < st.s.length := by rw [inv.s_len]; exact hj
  have hslen : (st.s.set j ((draw c opts.rand 0
      - (SetBytes (chal c pubs j msg opts.h opts.rand (pubs.length - 1)) : Int) * sk.D)
        % c.N)).length = pubs.length := by
    rw [List.length_set, inv.s_len]
  obtain ⟨vo', hloop, _⟩ := verifyLoop_closes c laws hn pubs j msg opts.h opts.rand sk.D
    ⟨chal c pubs j msg opts.h opts.rand (pubs.length - 1 - j),
     st.s.set j ((draw c opts.rand 0
      - (SetBytes (chal c pubs j msg opts.h opts.rand (pubs.length - 1)) : Int) * sk.D)
        % c.N)⟩ hj hc hring hkey hslen
    (by
      intro u hu
      have hne : j ≠ pos pubs.length j u := by
        intro hh
        have := pos_inj _ _ _ _ hj (by omega : pubs.length - 1 < pubs.length) (by omega)
          ((pos_last _ _ hj).trans hh)
        omega
      simp only
      rw [List.getElem?_set_ne hne]
      exact inv.s_get u (by omega))
    (by
      simp only
      rw [List.getElem?_set_self hjs])
    pubs.length 0 vo (by omega) hvo
  refine ⟨vo', ?_⟩
  rw [Verify_eq_of_len _ _ _ _ hslen.symm]
  simp only
  rw [tIdx_zero _ _ hj, tIdx_full _ _ hj] at hloop
  have h01 : ((0 : Nat) : Int) + 1 = 1 := by simp
  rw [h01] at hloop
  rw [hloop]
  simp only
  rw [sameBytes_self]

theorem set_zero_of_length_one {α : Type} (l : List α) (x : α) (h : l.length = 1) :
    l.set 0 x = [x] := by
  match l, h with
  | [_], _ => rfl

/-- C11. Degenerate ring: for the ring `[P]` of one key `P = d*G` on a curve
that is a cyclic group of order at least 2, signer index 0 and a stream holding
one draw, `Sign` makes a single read (the nonce `k`), its walk loop exits
before any iteration (it returns its state even with an iteration budget of 0),
and it returns the initial challenge `e = H(k*G || m || P)` with the single
scalar `(k - int(e)*d) mod n`; `Verify` with the same hash function returns
`(true, nil)` on this signature. -/
theorem Sign_single_key (c : Curve) (p : PublicKey) (sk : PrivateKey) (msg : List Byte)
    (opts : SignerOpts) (laws : CurveLaws c) (hn : 2 ≤ c.N) (hc : p.Curve = c)
    (hkey : (p.X, p.Y) = mulG c sk.D) (hlen : drawLen c ≤ opts.rand.length) :
    ∃ o', Sign [p] 0 sk msg opts =
        .ok (some ⟨digest opts.h (c.ScalarBaseMult (Bytes (draw c opts.rand 0))) msg p,
                   [(draw c opts.rand 0
                     - (SetBytes (digest opts.h
                         (c.ScalarBaseMult (Bytes (draw c opts.rand 0))) msg p) : Int)
                       * sk.D) % c.N]⟩, o') ∧
      reads o'.calls = reads opts.calls ++ [drawLen c] ∧
      (∀ st : Walk, walk c [p] 0 msg 0 (((0 : Int) + 2).tmod ([p].length : Nat)) st
        = .ok (some st, st.opts)) ∧
      ∀ vo : SignerOpts, vo.h.sum = opts.h.sum →
        ∃ vo', Verify [p]
          ⟨digest opts.h (c.ScalarBaseMult (Bytes (draw c opts.rand 0))) msg p,
           [(draw c opts.rand 0
             - (SetBytes (digest opts.h
                 (c.ScalarBaseMult (Bytes (draw c opts.rand 0))) msg p) : Int)
               * sk.D) % c.N]⟩ msg vo = .ok ((true, none), vo') := by
  have hc' : ∀ q ∈ [p], q.Curve = c := by
    intro q hq
    rw [List.mem_singleton.mp hq]
    exact hc
  have hring : ∀ q ∈ [p], ∃ a : Int, (q.X, q.Y) = mulG c a := by
    intro q hq
    rw [List.mem_singleton.mp hq]
    exact ⟨sk.D, hkey⟩
  obtain ⟨st, inv, hsign, hver⟩ := Sign_Verify_explicit c [p] 0 sk msg opts laws hn
    (by simp) hc' hring hkey (by simpa using hlen)
  have hchal : chal c [p] 0 msg opts.h opts.rand 0
      = digest opts.h (c.ScalarBaseMult (Bytes (draw c opts.rand 0))) msg p := by
    have hp : pos 1 0 0 = 0 := rfl
    simp only [chal, List.length_singleton, hp, List.getD_cons_zero]
  have hset := fun x => set_zero_of_length_one st.s x inv.s_len
  simp only [List.length_singleton, Nat.sub_self, hset, hchal, Nat.cast_zero] at hsign hver
  refine ⟨st.opts, hsign, ?_, ?_, hver⟩
  · have := inv.reads_eq
    simpa using this
  · intro st'
    have h1 : ((0 : Int) + 2).tmod (([p] : List PublicKey).length : Nat) = 0 := by
      simp only [List.length_singleton]
      decide
    have h2 : (0 : Int) = ((0 : Int) + 1).tmod (([p] : List PublicKey).length : Nat) := by
      simp only [List.length_singleton]
      decide
    rw [h1, walk, if_pos h2]

/-- C11, at the ring of the single example key of secret scalar 3. -/
theorem Sign_single_key_witness :
    ∃ o', Sign [exPub 3] 0 (exKey 3) exMsg exOpts =
        .ok (some ⟨digest exHash (exCurve.ScalarBaseMult (Bytes (draw exCurve exStream 0)))
                     exMsg (exPub 3),
                   [(draw exCurve exStream 0
                     - (SetBytes (digest exHash
                         (exCurve.ScalarBaseMult (Bytes (draw exCurve exStream 0))) exMsg
                         (exPub 3)) : Int) * 3) % 7]⟩, o') :=
  let ⟨o', h, _⟩ := Sign_single_key exCurve (exPub 3) (exKey 3) exMsg exOpts exCurve_laws
    (by decide) rfl (exCurve_mulG 3).symm (by decide)
  ⟨o', h⟩

/-! ### The walk loop as a run over its indices -/

theorem walk_fold (curve : Curve) (pubs : List PublicKey) (j : Nat) (msg : List Byte)
    (o : SignerOpts) (hj : j < pubs.length) (hN1 : curve.N ≠ 1)
    (hlen : pubs.length * drawLen curve ≤ o.rand.length) :
    ∀ (m t : Nat) (st : Walk) (fuel : Nat), t + m + 1 = pubs.length → m ≤ fuel →
      WalkInv curve pubs j msg o t st →
      walk curve pubs (j : Int) msg fuel (pos pubs.length j (t + 1) : Nat) st
          = .ok (some (walkRun curve pubs msg
                  ((List.range' (t + 1) m).map (pos pubs.length j)) st),
                 (walkRun curve pubs msg
                  ((List.range' (t + 1) m).map (pos pubs.length j)) st).opts)
        ∧ WalkInv curve pubs j msg o (pubs.length - 1)
            (walkRun curve pubs msg ((List.range' (t + 1) m).map (pos pubs.length j)) st) := by
  have hN : 0 < pubs.length := by omega
  intro m
  induction m with
  | zero =>
    intro t st fuel htm _ inv
    have ht : t + 1 = pubs.length := by omega
    have hexit : ((pos pubs.length j (t + 1) : Nat) : Int)
        = ((j : Int) + 1).tmod (pubs.length : Int) := by
      rw [seed_index, ht, pos_full]
    have ht' : t = pubs.length - 1 := by omega
    simp only [List.range'_zero, List.map_nil, walkRun, List.foldl_nil]
    refine ⟨?_, ht' ▸ inv⟩
    cases fuel <;> simp [walk, hexit]
  | succ m ih =>
    intro t st fuel htm hfuel inv
    obtain ⟨fuel, rfl⟩ : ∃ f, fuel = f + 1 := ⟨fuel - 1, by omega⟩
    have hne : ¬ ((pos pubs.length j (t + 1) : Nat) : Int)
        = ((j : Int) + 1).tmod (pubs.length : Int) := by
      rw [seed_index]
      intro hh
      have := pos_inj _ _ _ _ hj (by omega) (by omega) (Int.ofNat_inj.mp hh)
      omega
    have hdl : drawLen curve ≤ st.opts.rand.length := by
      rw [inv.rand_len]
      have : (t + 1 + 1) * drawLen curve ≤ pubs.length * drawLen curve :=
        Nat.mul_le_mul_right _ (by omega)
      rw [Nat.add_mul (t + 1) 1, Nat.one_mul] at this
      omega
    have hbody := walkBody_eq curve pubs msg (pos pubs.length j (t + 1) : Nat) st
      (by omega) (by exact_mod_cast pos_lt _ _ _ hN) inv.s_len inv.es_len hN1
    rw [if_pos hdl] at hbody
    have inv' := walkNext_inv curve pubs j msg o t st hj (by omega) inv
    obtain ⟨hw, hinv⟩ := ih (t + 1) _ fuel (by omega) (by omega) inv'
    have hrun : walkRun curve pubs msg
        ((List.range' (t + 1) (m + 1)).map (pos pubs.length j)) st
        = walkRun curve pubs msg ((List.range' (t + 1 + 1) m).map (pos pubs.length j))
            (walkNext curve pubs msg (pos pubs.length j (t + 1) : Nat) st) := by
      simp only [walkRun, List.range'_succ, List.map_cons, List.foldl_cons]
    rw [hrun]
    refine ⟨?_, hinv⟩
    rw [walk, if_neg hne, hbody]
    simp only
    rw [next_index _ _ _ hN]
    exact hw

theorem walk_out_of_fuel (curve : Curve) (pubs : List PublicKey) (j : Nat) (msg : List Byte)
    (o : SignerOpts) (hj : j < pubs.length) (hN1 : curve.N ≠ 1)
    (hlen : pubs.length * drawLen curve ≤ o.rand.length) :
    ∀ (fuel m t : Nat) (st : Walk), t + m + 1 = pubs.length → fuel < m →
      WalkInv curve pubs j msg o t st →
      walk curve pubs (j : Int) msg fuel (pos pubs.length j (t + 1) : Nat) st
        = .error Fault.outOfFuel := by
  have hN : 0 < pubs.length := by omega
  intro fuel
  induction fuel with
  | zero =>
    intro m t st htm hfuel inv
    have hne : ¬ ((pos pubs.length j (t + 1) : Nat) : Int)
        = ((j : Int) + 1).tmod (pubs.length : Int) := by
      rw [seed_index]
      intro hh
      have := pos_inj _ _ _ _ hj (by omega) (by omega) (Int.ofNat_inj.mp hh)
      omega
    rw [walk, if_neg hne]
  | succ fuel ih =>
    intro m t st htm hfuel inv
    have hne : ¬ ((pos pubs.length j (t + 1) : Nat) : Int)
        = ((j : Int) + 1).tmod (pubs.length : Int) := by
      rw [seed_index]
      intro hh
      have := pos_inj _ _ _ _ hj (by omega) (by omega) (Int.ofNat_inj.mp hh)
      omega
    have hdl : drawLen curve ≤ st.opts.rand.length := by
      rw [inv.rand_len]
      have : (t + 1 + 1) * drawLen curve ≤ pubs.length * drawLen curve :=
        Nat.mul_le_mul_right _ (by omega)
      rw [Nat.add_mul (t + 1) 1, Nat.one_mul] at this
      omega
    have hbody := walkBody_eq curve pubs msg (pos pubs.length j (t + 1) : Nat) st
      (by omega) (by exact_mod_cast pos_lt _ _ _ hN) inv.s_len inv.es_len hN1
    rw [if_pos hdl] at hbody
    have inv' := walkNext_inv curve pubs j msg o t st hj (by omega) inv
    rw [walk, if_neg hne, hbody]
    simp only
    rw [next_index _ _ _ hN]
    exact ih (m - 1) (t + 1) _ (by omega) (by omega) inv'

theorem walkIndices_eq (N j : Nat) :
    walkIndices N j = (List.range' 1 (N - 1)).map (pos N j) := by
  unfold walkIndices
  rw [List.range'_eq_map_range, List.map_map]
  apply List.map_congr_left
  intro t _
  simp only [Function.comp, pos]
  congr 1
  omega

theorem walkIndices_pos (N j : Nat) :
    walkIndices N j = (List.range (N - 1)).map (fun t => pos N j (t + 1)) := by
  unfold walkIndices
  apply List.map_congr_left
  intro t _
  simp only [pos]
  congr 1
  omega

theorem prev_of_pos (N j t : Nat) (hN : 0 < N) :
    (pos N j (t + 1) + N - 1) % N = pos N j t := by
  have h1 := pos_succ N j t hN
  have h2 := pos_lt N j t hN
  have h3 := pos_lt N j (t + 1) hN
  rw [prev_mod N _ h3]
  split at h1 <;> split <;> omega

theorem walkIndices_nodup (N j : Nat) (hj : j < N) : (walkIndices N j).Nodup := by
  rw [walkIndices_pos]
  apply List.Nodup.map_on _ (List.nodup_range _)
  intro x hx y hy hxy
  have hx' := List.mem_range.mp hx
  have hy' := List.mem_range.mp hy
  have := pos_inj N j (x + 1) (y + 1) hj (by omega) (by omega) hxy
  omega

theorem mem_walkIndices (N j p : Nat) (hj : j < N) :
    p ∈ walkIndices N j ↔ p < N ∧ p ≠ (j + 1) % N := by
  have hN : 0 < N := by omega
  have hp0 : pos N j 0 = (j + 1) % N := rfl
  rw [walkIndices_pos, List.mem_map]
  constructor
  · rintro ⟨t, ht, rfl⟩
    have ht' := List.mem_range.mp ht
    refine ⟨pos_lt _ _ _ hN, ?_⟩
    rw [← hp0]
    intro h
    have := pos_inj N j (t + 1) 0 hj (by omega) hN h
    omega
  · rintro ⟨hp, hne⟩
    have hpos := pos_tIdx N j p hj hp
    have ht := tIdx_lt N j p hN
    have h0 : tIdx N j p ≠ 0 := by
      intro h
      rw [h, hp0] at hpos
      exact hne hpos.symm
    refine ⟨tIdx N j p - 1, List.mem_range.mpr (by omega), ?_⟩
    rw [show tIdx N j p - 1 + 1 = tIdx N j p by omega]
    exact hpos

theorem walkIndices_prev (N j : Nat) (hj : j < N) :
    (walkIndices N j).map (fun i => (i + N - 1) % N)
      = (List.range (N - 1)).map (fun t => (j + 1 + t) % N) := by
  have hN : 0 < N := by omega
  rw [walkIndices_pos, List.map_map]
  apply List.map_congr_left
  intro t _
  simp only [Function.comp]
  rw [prev_of_pos N j t hN]
  rfl

theorem mem_prev_positions (N j p : Nat) (hj : j < N) :
    p ∈ (List.range (N - 1)).map (fun t => (j + 1 + t) % N) ↔ p < N ∧ p ≠ j := by
  have hN : 0 < N := by omega
  rw [List.mem_map]
  constructor
  · rintro ⟨t, ht, rfl⟩
    have ht' := List.mem_range.mp ht
    refine ⟨Nat.mod_lt _ hN, ?_⟩
    intro h
    have h1 : pos N j t = pos N j (N - 1) := by
      rw [pos_last _ _ hj]
      exact h
    have := pos_inj N j t (N - 1) hj (by omega) (by omega) h1
    omega
  · rintro ⟨hp, hne⟩
    have hpos := pos_tIdx N j p hj hp
    have ht := tIdx_lt N j p hN
    have hlast : tIdx N j p ≠ N - 1 := by
      intro h
      rw [h, pos_last _ _ hj] at hpos
      exact hne hpos.symm
    exact ⟨tIdx N j p, List.mem_range.mpr (by omega), hpos⟩

theorem prev_positions_nodup (N j : Nat) (hj : j < N) :
    ((List.range (N - 1)).map (fun t => (j + 1 + t) % N)).Nodup := by
  apply List.Nodup.map_on _ (List.nodup_range _)
  intro x hx y hy hxy
  have hx' := List.mem_range.mp hx
  have hy' := List.mem_range.mp hy
  exact pos_inj N j x y hj (by omega) (by omega) hxy

/-- C13. For `N >= 1`, `0 <= j < N` (a group order other than 1 and a stream
holding `N` draws, so that no draw ends the loop early): started in the state
left by the seed step, the walk loop of `Sign` returns, for every iteration
budget of at least `N-1`, the state obtained by running its body at the
indices `(j+2) mod N, ..., (j+N) mod N` in this order, and it does not finish
within a smaller budget: it makes exactly `N-1` iterations. These indices are
pairwise distinct and are the positions other than `(j+1) mod N`. At each of
them `mod(i-1, N) = (i+N-1) mod N`, and these previous positions are
`(j+1) mod N, ..., (j+N-1) mod N`, pairwise distinct, the positions other
than `j`: each receives its scalar once, and position `j` still holds the zero
value when the loop ends. -/
theorem walk_visits (pubs : List PublicKey) (j : Nat) (msg : List Byte) (opts : SignerOpts)
    (hj : j < pubs.length) (hN1 : (curveOf pubs).N ≠ 1)
    (hlen : pubs.length * drawLen (curveOf pubs) ≤ opts.rand.length) :
    signSeed (curveOf pubs) pubs j msg (List.replicate pubs.length none)
        (List.replicate pubs.length 0) opts
      = .ok (some (draw (curveOf pubs) opts.rand 0, walkStart pubs j msg opts),
             (walkStart pubs j msg opts).opts) ∧
    (∀ fuel, pubs.length - 1 ≤ fuel →
      walk (curveOf pubs) pubs j msg fuel (((j : Int) + 2).tmod pubs.length)
          (walkStart pubs j msg opts)
        = .ok (some (walkRun (curveOf pubs) pubs msg (walkIndices pubs.length j)
                  (walkStart pubs j msg opts)),
               (walkRun (curveOf pubs) pubs msg (walkIndices pubs.length j)
                  (walkStart pubs j msg opts)).opts)) ∧
    (∀ fuel, fuel < pubs.length - 1 →
      walk (curveOf pubs) pubs j msg fuel (((j : Int) + 2).tmod pubs.length)
          (walkStart pubs j msg opts)
        = .error Fault.outOfFuel) ∧
    (walkIndices pubs.length j).length = pubs.length - 1 ∧
    (walkIndices pubs.length j).Nodup ∧
    (∀ p, p ∈ walkIndices pubs.length j ↔ p < pubs.length ∧ p ≠ (j + 1) % pubs.length) ∧
    (∀ i ∈ walkIndices pubs.length j,
      mod ((i : Int) - 1) pubs.length = (((i + pubs.length - 1) % pubs.length : Nat) : Int)) ∧
    (walkIndices pubs.length j).map (fun i => (i + pubs.length - 1) % pubs.length)
      = (List.range (pubs.length - 1)).map (fun t => (j + 1 + t) % pubs.length) ∧
    ((List.range (pubs.length - 1)).map (fun t => (j + 1 + t) % pubs.length)).Nodup ∧
    (∀ p, p ∈ (List.range (pubs.length - 1)).map (fun t => (j + 1 + t) % pubs.length)
      ↔ p < pubs.length ∧ p ≠ j) ∧
    (∀ t, t + 1 < pubs.length →
      (walkRun (curveOf pubs) pubs msg (walkIndices pubs.length j)
          (walkStart pubs j msg opts)).s[(j + 1 + t) % pubs.length]?
        = some (draw (curveOf pubs) opts.rand (t + 1))) ∧
    (walkRun (curveOf pubs) pubs msg (walkIndices pubs.length j)
        (walkStart pubs j msg opts)).s[j]? = some 0 := by
  have hN : 0 < pubs.length := by omega
  have hL : drawLen (curveOf pubs) ≤ opts.rand.length := by
    have : 1 * drawLen (curveOf pubs) ≤ pubs.length * drawLen (curveOf pubs) :=
      Nat.mul_le_mul_right _ hN
    omega
  have hseed := signSeed_eq (curveOf pubs) pubs j msg (List.replicate pubs.length none)
    (List.replicate pubs.length 0) opts (by omega) (by exact_mod_cast hj) (by simp) hN1
  rw [if_pos hL] at hseed
  have hk : (seedNext (curveOf pubs) pubs j msg (List.replicate pubs.length none)
      (List.replicate pubs.length 0) opts).1 = draw (curveOf pubs) opts.rand 0 := by
    simp [seedNext, draw]
  have inv0 : WalkInv (curveOf pubs) pubs j msg opts 0 (walkStart pubs j msg opts) :=
    seedNext_inv (curveOf pubs) pubs j msg opts hj
  obtain ⟨hrun, inv⟩ := walk_fold (curveOf pubs) pubs j msg opts hj hN1 hlen
    (pubs.length - 1) 0 _ (pubs.length - 1) (by omega) (le_refl _) inv0
  rw [Nat.zero_add, ← walkIndices_eq] at inv
  refine ⟨?_, ?_, ?_, ?_, walkIndices_nodup _ _ hj, fun p => mem_walkIndices _ _ p hj, ?_,
    walkIndices_prev _ _ hj, prev_positions_nodup _ _ hj,
    fun p => mem_prev_positions _ _ p hj, ?_, ?_⟩
  · rw [hseed, ← hk]
    rfl
  · intro fuel hfuel
    have := (walk_fold (curveOf pubs) pubs j msg opts hj hN1 hlen
      (pubs.length - 1) 0 _ fuel (by omega) hfuel inv0).1
    rw [Nat.zero_add, ← walkIndices_eq, ← start_index] at this
    exact this
  · intro fuel hfuel
    have := walk_out_of_fuel (curveOf pubs) pubs j msg opts hj hN1 hlen
      fuel (pubs.length - 1) 0 _ (by omega) hfuel inv0
    rw [Nat.zero_add, ← start_index] at this
    exact this
  · simp [walkIndices]
  · intro i hi
    rw [walkIndices_pos, List.mem_map] at hi
    obtain ⟨t, _, rfl⟩ := hi
    have h1 := prev_index pubs.length j t hN
    have h2 := mod_pred_bounds ((pos pubs.length j (t + 1) : Nat) : Int) pubs.length
      (by omega) (by exact_mod_cast pos_lt _ _ _ hN)
    rw [prev_of_pos _ _ _ hN]
    omega
  · intro t ht
    exact inv.s_get t (by omega)
  · have := inv.s_rest (pubs.length - 1) (le_refl _) (by omega)
    rw [pos_last _ _ hj] at this
    exact this

/-- C13, at the example ring of three keys with signer 1: the loop runs at
the indices 0 and 1 and writes the scalars of positions 2 and 0. -/
theorem walk_visits_witness :
    walkIndices 3 1 = [0, 1] ∧
      (walkIndices 3 1).map (fun i => (i + 3 - 1) % 3) = [2, 0] ∧
      (∀ fuel, 3 - 1 ≤ fuel →
        walk exCurve exRing (1 : Nat) exMsg fuel ((((1 : Nat) : Int) + 2).tmod (3 : Nat))
            (walkStart exRing 1 exMsg exOpts)
          = .ok (some (walkRun exCurve exRing exMsg (walkIndices 3 1)
                    (walkStart exRing 1 exMsg exOpts)),
                 (walkRun exCurve exRing exMsg (walkIndices 3 1)
                    (walkStart exRing 1 exMsg exOpts)).opts)) :=
  ⟨by decide, by decide,
    (walk_visits exRing 1 exMsg exOpts (by decide) (by decide) (by decide)).2.1⟩

/-! ### Slice accesses of `Sign` -/

theorem Sign_order_one_eq (pubs : List PublicKey) (j : Nat) (sk : PrivateKey)
    (msg : List Byte) (opts : SignerOpts) (hj : j < pubs.length)
    (hN1 : (curveOf pubs).N = 1) :
    Sign pubs j sk msg opts =
      if drawLen (curveOf pubs) ≤ opts.rand.length then .error Fault.divisionByZero
      else .ok (none, ⟨opts.h, [], opts.calls ++ [Call.randRead (drawLen (curveOf pubs))]⟩) := by
  rw [Sign_eq_of_range pubs j sk msg opts hj]
  unfold signSeed
  rw [randFieldElement_eq]
  by_cases hl : (curveOf pubs).BitSize / 8 + 8 ≤ opts.rand.length
  · have hl' : drawLen (curveOf pubs) ≤ opts.rand.length := hl
    simp [hN1, hl, hl', bind, Except.bind, one]
  · have hl' : ¬ drawLen (curveOf pubs) ≤ opts.rand.length := hl
    simp [hN1, hl, hl', bind, Except.bind, pure, Except.pure, one, drawLen]

theorem signClose_order_zero (curve : Curve) (j : Int) (sk : PrivateKey) (k : Int)
    (st : Walk) (hN0 : curve.N = 0) :
    signClose curve j sk k st = .error Fault.divisionByZero := by
  unfold signClose
  simp only [hN0, if_true, bind, Except.bind, throw, throwThe, MonadExceptOf.throw]

theorem Sign_outcome (pubs : List PublicKey) (j : Nat) (sk : PrivateKey) (msg : List Byte)
    (opts : SignerOpts) (hj : j < pubs.length) :
    Sign pubs j sk msg opts = .error Fault.divisionByZero ∨
      (∃ o', Sign pubs j sk msg opts = .ok (none, o')) ∨
      (∃ sig o', Sign pubs j sk msg opts = .ok (some sig, o')) := by
  by_cases hN1 : (curveOf pubs).N = 1
  · rw [Sign_order_one_eq pubs j sk msg opts hj hN1]
    split
    · left; rfl
    · right; left; exact ⟨_, rfl⟩
  · by_cases hlen : pubs.length * drawLen (curveOf pubs) ≤ opts.rand.length
    · by_cases hN0 : (curveOf pubs).N = 0
      · obtain ⟨st0, st, _, _, _, hsign⟩ := Sign_run pubs j sk msg opts hj hN1 hlen
        rw [signClose_order_zero _ _ _ _ _ hN0] at hsign
        left
        exact hsign
      · obtain ⟨st, _, hsign⟩ := Sign_ok pubs j sk msg opts hj hN0 hN1 hlen
        right; right
        exact ⟨_, _, hsign⟩
    · obtain ⟨o', h, _⟩ := Sign_short pubs j sk msg opts hj hN1 (by omega)
      right; left
      exact ⟨o', h⟩

theorem Sign_nil_of_bad_index (pubs : List PublicKey) (j : Int) (sk : PrivateKey)
    (msg : List Byte) (opts : SignerOpts) (hN : 1 ≤ pubs.length)
    (hj : j < 0 ∨ (pubs.length : Int) ≤ j) :
    Sign pubs j sk msg opts = .ok (none, opts) := by
  unfold Sign
  cases pubs with
  | nil => simp at hN
  | cons p ps =>
    have : j ≥ ((p :: ps).length : Int) ∨ j < 0 := by omega
    simp only [index, bind, Except.bind, pure, Except.pure, le_refl, if_true, Int.toNat_zero,
      List.getElem?_cons_zero, this]

/-- C16. For every ring of `N >= 1` keys, every integer signer index and
every random stream, `Sign` does not fault on a slice access (nor exhaust the
iteration budget of its walk loop): index 0 is in `[0, N)`; for `0 <= j < N`
the indices `(j+1)%N` and `(j+2)%N` are in `[0, N)`; for every loop index
`0 <= i < N` the indices `mod(i-1, N)` and `(i+1)%N` are in `[0, N)`; and `j`
itself is in `[0, N)` when `sig.s[j]` is written. -/
theorem Sign_indices_in_bounds (pubs : List PublicKey) (j : Int) (sk : PrivateKey)
    (msg : List Byte) (opts : SignerOpts) (hN : 1 ≤ pubs.length) :
    Sign pubs j sk msg opts ≠ .error Fault.indexOutOfRange ∧
    Sign pubs j sk msg opts ≠ .error Fault.outOfFuel ∧
    ((0 : Int) < pubs.length) ∧
    (0 ≤ j → j < pubs.length →
      (0 ≤ (j + 1).tmod pubs.length ∧ (j + 1).tmod pubs.length < pubs.length) ∧
      (0 ≤ (j + 2).tmod pubs.length ∧ (j + 2).tmod pubs.length < pubs.length)) ∧
    (∀ i : Int, 0 ≤ i → i < pubs.length →
      (0 ≤ mod (i - 1) pubs.length ∧ mod (i - 1) pubs.length < pubs.length) ∧
      (0 ≤ (i + 1).tmod pubs.length ∧ (i + 1).tmod pubs.length < pubs.length)) ∧
    ((∃ sig o', Sign pubs j sk msg opts = .ok (some sig, o')) → 0 ≤ j ∧ j < pubs.length) := by
  have hpos : (0 : Int) < pubs.length := by omega
  have hcases : (j < 0 ∨ (pubs.length : Int) ≤ j) ∨ ∃ n : Nat, j = n ∧ n < pubs.length := by
    by_cases h : j < 0 ∨ (pubs.length : Int) ≤ j
    · left; exact h
    · right
      exact ⟨j.toNat, by omega, by omega⟩
  refine ⟨?_, ?_, hpos, ?_, ?_, ?_⟩
  · rcases hcases with h | ⟨n, rfl, hn⟩
    · rw [Sign_nil_of_bad_index pubs j sk msg opts hN h]
      simp
    · rcases Sign_outcome pubs n sk msg opts hn with h | ⟨o', h⟩ | ⟨sig, o', h⟩ <;>
        rw [h] <;> simp
  · rcases hcases with h | ⟨n, rfl, hn⟩
    · rw [Sign_nil_of_bad_index pubs j sk msg opts hN h]
      simp
    · rcases Sign_outcome pubs n sk msg opts hn with h | ⟨o', h⟩ | ⟨sig, o', h⟩ <;>
        rw [h] <;> simp
  · intro h0 _
    exact ⟨tmod_bounds _ _ (by omega) hpos, tmod_bounds _ _ (by omega) hpos⟩
  · intro i h0 h1
    exact ⟨mod_pred_bounds i _ h0 h1, tmod_bounds _ _ (by omega) hpos⟩
  · rintro ⟨sig, o', h⟩
    rcases hcases with hbad | ⟨n, rfl, hn⟩
    · rw [Sign_nil_of_bad_index pubs j sk msg opts hN hbad] at h
      simp at h
    · omega

/-- C16, at the example ring of three keys, for the signer index 5. -/
theorem Sign_indices_in_bounds_witness :
    Sign exRing 5 (exKey 5) exMsg exOpts ≠ .error Fault.indexOutOfRange :=
  (Sign_indices_in_bounds exRing 5 (exKey 5) exMsg exOpts (by decide)).1

/-! ### Hash state between digests -/

theorem hashRun_append (a b : List Call) :
    hashRun (a ++ b) = b.foldl hashStep (hashRun a) := by
  simp [hashRun, List.foldl_append]

theorem run_seed_block (r : HashRun) (n : Nat) (P : Int × Int) (msg : List Byte)
    (Q : PublicKey) :
    List.foldl hashStep r
      [Call.randRead n, Call.curveScalarBaseMult, Call.hashReset,
       Call.hashWrite (Bytes P.1), Call.hashWrite (Bytes P.2), Call.hashWrite msg,
       Call.hashWrite (Bytes Q.X), Call.hashWrite (Bytes Q.Y), Call.hashSum]
      = ⟨fiveParts P msg Q, false, r.outs ++ [fiveParts P msg Q], r.ok⟩ := by
  simp [hashStep, fiveParts]

theorem run_walk_block (r : HashRun) (n : Nat) (P : Int × Int) (msg : List Byte)
    (Q : PublicKey) :
    List.foldl hashStep r
      [Call.randRead n, Call.hashReset, Call.curveScalarBaseMult,
       Call.curveScalarMult, Call.curveAdd, Call.hashWrite (Bytes P.1),
       Call.hashWrite (Bytes P.2), Call.hashWrite msg, Call.hashWrite (Bytes Q.X),
       Call.hashWrite (Bytes Q.Y), Call.hashSum]
      = ⟨fiveParts P msg Q, false, r.outs ++ [fiveParts P msg Q], r.ok⟩ := by
  simp [hashStep, fiveParts]

theorem run_verify_block (r : HashRun) (P : Int × Int) (msg : List Byte) (Q : PublicKey) :
    List.foldl hashStep r
      [Call.curveScalarMult, Call.curveScalarBaseMult, Call.curveAdd, Call.hashReset,
       Call.hashWrite (Bytes P.1), Call.hashWrite (Bytes P.2), Call.hashWrite msg,
       Call.hashWrite (Bytes Q.X), Call.hashWrite (Bytes Q.Y), Call.hashSum]
      = ⟨fiveParts P msg Q, false, r.outs ++ [fiveParts P msg Q], r.ok⟩ := by
  simp [hashStep, fiveParts]

theorem run_read (r : HashRun) (n : Nat) :
    List.foldl hashStep r [Call.randRead n] = r := by
  simp [hashStep]

theorem clean_nil (pubs : List PublicKey) (msg : List Byte) : CleanRecord pubs msg [] := by
  simp [CleanRecord, hashRun]

theorem clean_of_step (pubs : List PublicKey) (msg : List Byte) (d blk : List Call)
    (P : Int × Int) (Q : PublicKey) (hQ : Q ∈ pubs) (h : CleanRecord pubs msg d)
    (hblk : ∀ r : HashRun, List.foldl hashStep r blk
      = ⟨fiveParts P msg Q, false, r.outs ++ [fiveParts P msg Q], r.ok⟩) :
    CleanRecord pubs msg (d ++ blk) := by
  unfold CleanRecord at *
  rw [hashRun_append, hblk]
  refine ⟨h.1, ?_⟩
  intro ps hps
  simp only [List.mem_append, List.mem_singleton] at hps
  rcases hps with hps | rfl
  · exact h.2 ps hps
  · exact ⟨P, Q, hQ, rfl⟩

theorem clean_read (pubs : List PublicKey) (msg : List Byte) (d : List Call) (n : Nat)
    (h : CleanRecord pubs msg d) : CleanRecord pubs msg (d ++ [Call.randRead n]) := by
  unfold CleanRecord at *
  rw [hashRun_append, run_read]
  exact h

theorem recorded_refl (c0 : List Call) : Recorded c0 [] c0 :=
  ⟨[], by simp, rfl, rfl⟩

theorem recorded_step (c0 : List Call) (outs : List (List (List Byte))) (cs blk : List Call)
    (ps : List (List Byte)) (h : Recorded c0 outs cs)
    (hblk : ∀ r : HashRun, List.foldl hashStep r blk = ⟨ps, false, r.outs ++ [ps], r.ok⟩) :
    Recorded c0 (outs ++ [ps]) (cs ++ blk) := by
  obtain ⟨d, hd, ho, hk⟩ := h
  refine ⟨d ++ blk, by rw [hd, List.append_assoc], ?_, ?_⟩
  · rw [hashRun_append, hblk, ho]
  · rw [hashRun_append, hblk, hk]

theorem walkNext_calls (curve : Curve) (pubs : List PublicKey) (msg : List Byte) (i : Int)
    (st : Walk) :
    ∃ P : Int × Int, (walkNext curve pubs msg i st).opts.calls
      = st.opts.calls ++
        [Call.randRead (drawLen curve), Call.hashReset, Call.curveScalarBaseMult,
         Call.curveScalarMult, Call.curveAdd, Call.hashWrite (Bytes P.1),
         Call.hashWrite (Bytes P.2), Call.hashWrite msg,
         Call.hashWrite (Bytes (pubs.getD i.toNat default).X),
         Call.hashWrite (Bytes (pubs.getD i.toNat default).Y), Call.hashSum] :=
  ⟨_, rfl⟩

theorem seedNext_calls (curve : Curve) (pubs : List PublicKey) (j : Int) (msg : List Byte)
    (es : List (Option (List Byte))) (s : List Int) (opts : SignerOpts) :
    ∃ P : Int × Int, (seedNext curve pubs j msg es s opts).2.opts.calls
      = opts.calls ++
        [Call.randRead (drawLen curve), Call.curveScalarBaseMult, Call.hashReset,
         Call.hashWrite (Bytes P.1), Call.hashWrite (Bytes P.2), Call.hashWrite msg,
         Call.hashWrite (Bytes (pubs.getD ((j + 1).tmod pubs.length).toNat default).X),
         Call.hashWrite (Bytes (pubs.getD ((j + 1).tmod pubs.length).toNat default).Y),
         Call.hashSum] :=
  ⟨_, rfl⟩

theorem walk_clean (curve : Curve) (pubs : List PublicKey) (j : Int) (msg : List Byte)
    (c0 : List Call) (hN1 : curve.N ≠ 1) :
    ∀ (fuel : Nat) (i : Int) (st : Walk), 0 ≤ i → i < pubs.length →
      st.s.length = pubs.length → st.es.length = pubs.length →
      (∃ d, st.opts.calls = c0 ++ d ∧ CleanRecord pubs msg d) →
      ∀ r o', walk curve pubs j msg fuel i st = .ok (r, o') →
        ∃ d, o'.calls = c0 ++ d ∧ CleanRecord pubs msg d := by
  intro fuel
  induction fuel with
  | zero =>
    intro i st _ _ _ _ hcl r o' hw
    rw [walk] at hw
    split at hw
    · simp only [Except.ok.injEq, Prod.mk.injEq] at hw
      rw [← hw.2]
      exact hcl
    · simp at hw
  | succ fuel ih =>
    intro i st hi0 hiN hs hes hcl r o' hw
    have hpos : (0 : Int) < pubs.length := by omega
    rw [walk] at hw
    split at hw
    · simp only [Except.ok.injEq, Prod.mk.injEq] at hw
      rw [← hw.2]
      exact hcl
    · rw [walkBody_eq curve pubs msg i st hi0 hiN hs hes hN1] at hw
      obtain ⟨d, hd, hclean⟩ := hcl
      by_cases hdl : drawLen curve ≤ st.opts.rand.length
      · rw [if_pos hdl] at hw
        simp only at hw
        have hnext := tmod_bounds (i + 1) pubs.length (by omega) hpos
        refine ih _ _ hnext.1 hnext.2 (by simp [walkNext, hs]) (by simp [walkNext, hes])
          ?_ r o' hw
        obtain ⟨P, hcalls⟩ := walkNext_calls curve pubs msg i st
        refine ⟨_, by rw [hcalls, hd, List.append_assoc], ?_⟩
        exact clean_of_step pubs msg d _ P (pubs.getD i.toNat default)
          (getD_mem pubs i.toNat (by omega)) hclean
          (fun r => run_walk_block r (drawLen curve) P msg _)
      · rw [if_neg hdl] at hw
        simp only [Except.ok.injEq, Prod.mk.injEq] at hw
        rw [← hw.2]
        exact ⟨_, by simp only [hd, List.append_assoc],
          clean_read pubs msg d (drawLen curve) hclean⟩

theorem chal_eq_sum_parts (c : Curve) (pubs : List PublicKey) (j : Nat) (msg : List Byte)
    (h : Hash) (rand : List Byte) (t : Nat) :
    chal c pubs j msg h rand t = h.sum (chalParts c pubs j msg h rand t).flatten := by
  cases t with
  | zero => simp [chal, chalParts, chalPoint, digest, fiveParts, List.flatten]
  | succ t => simp [chal, chalParts, chalPoint, digest, fiveParts, List.flatten]

theorem chainAt_succ (pubs : List PublicKey) (sig : RingSig) (msg : List Byte) (h : Hash)
    (i : Nat) :
    chainAt pubs sig msg h (i + 1) = h.sum (chainParts pubs sig msg h i).flatten := by
  simp [chainAt, List.range_succ, List.foldl_append, chainStep, chainParts, digest, fiveParts,
    List.flatten]

theorem chainAt_step (pubs : List PublicKey) (sig : RingSig) (msg : List Byte) (h : Hash)
    (i : Nat) :
    chainAt pubs sig msg h (i + 1) = chainStep pubs sig msg h (chainAt pubs sig msg h i) i := by
  simp [chainAt, List.range_succ, List.foldl_append]

theorem verifyNext_record (pubs : List PublicKey) (sig : RingSig) (msg : List Byte)
    (h : Hash) (n : Nat) (o : SignerOpts) :
    ∃ blk, (verifyNext pubs sig msg ((n : Int) + 1) (chainAt pubs sig msg h n) o).2.calls
        = o.calls ++ blk ∧
      ∀ r : HashRun, List.foldl hashStep r blk
        = ⟨chainParts pubs sig msg h n, false, r.outs ++ [chainParts pubs sig msg h n],
            r.ok⟩ := by
  have hidx : ((n : Int) + 1 - 1).toNat = n := by omega
  have hnext : (((n : Int) + 1).tmod pubs.length).toNat = (n + 1) % pubs.length := by
    rw [tmod_natCast _ pubs.length (n + 1) (by push_cast; rfl)]
    exact Int.toNat_ofNat _
  refine ⟨_, rfl, ?_⟩
  intro r
  simp only [hidx, hnext]
  exact run_verify_block r _ msg _

theorem verifyLoop_record (pubs : List PublicKey) (sig : RingSig) (msg : List Byte)
    (h : Hash) (c0 : List Call) (hslen : sig.s.length = pubs.length) :
    ∀ (m i : Nat) (o : SignerOpts), i + m = pubs.length → o.h.sum = h.sum →
      Recorded c0 ((List.range i).map (chainParts pubs sig msg h)) o.calls →
      ∃ o', verifyLoop pubs sig msg m ((i : Int) + 1) (chainAt pubs sig msg h i) o
          = .ok (chainAt pubs sig msg h pubs.length, o') ∧
        Recorded c0 ((List.range pubs.length).map (chainParts pubs sig msg h)) o'.calls := by
  intro m
  induction m with
  | zero =>
    intro i o him _ hrec
    have hi : i = pubs.length := by omega
    have : ¬ ((i : Int) + 1 ≤ pubs.length) := by omega
    refine ⟨o, ?_, hi ▸ hrec⟩
    simp [verifyLoop, this, hi]
  | succ m ih =>
    intro i o him hsum hrec
    have hle : ((i : Int) + 1 ≤ pubs.length) := by omega
    have hbody := verifyBody_eq pubs sig msg ((i : Int) + 1) (chainAt pubs sig msg h i) o
      (by omega) hle hslen
    have hidx : ((i : Int) + 1 - 1).toNat = i := by omega
    have hnext : (((i : Int) + 1).tmod pubs.length).toNat = (i + 1) % pubs.length := by
      rw [tmod_natCast _ pubs.length (i + 1) (by push_cast; rfl)]
      exact Int.toNat_ofNat _
    have hval : (verifyNext pubs sig msg ((i : Int) + 1) (chainAt pubs sig msg h i) o).1
        = chainAt pubs sig msg h (i + 1) := by
      rw [chainAt_step]
      simp only [verifyNext, chainStep, hidx, hnext]
      exact digest_congr _ _ hsum _ _ _
    have hsum' : (verifyNext pubs sig msg ((i : Int) + 1)
        (chainAt pubs sig msg h i) o).2.h.sum = h.sum := by
      simp [verifyNext, hsum]
    obtain ⟨blk, hcalls, hblk⟩ := verifyNext_record pubs sig msg h i o
    have hrec' : Recorded c0 ((List.range (i + 1)).map (chainParts pubs sig msg h))
        (verifyNext pubs sig msg ((i : Int) + 1) (chainAt pubs sig msg h i) o).2.calls := by
      rw [hcalls, List.range_succ, List.map_append]
      exact recorded_step c0 _ _ blk _ hrec hblk
    obtain ⟨o', hw, hr'⟩ := ih (i + 1) _ (by omega) hsum' hrec'
    refine ⟨o', ?_, hr'⟩
    rw [verifyLoop, if_pos hle, hbody]
    simp only
    rw [hval]
    have : ((i : Int) + 1 + 1) = (((i + 1 : Nat) : Int) + 1) := by push_cast; rfl
    rw [this]
    exact hw

theorem Verify_of_len_ne (pubs : List PublicKey) (sig : RingSig) (msg : List Byte)
    (opts : SignerOpts) (h : pubs.length ≠ sig.s.length) :
    Verify pubs sig msg opts = .ok ((false, some errCount), opts) := by
  unfold Verify
  simp [h, pure, Except.pure]

theorem Verify_record (pubs : List PublicKey) (sig : RingSig) (msg : List Byte)
    (opts : SignerOpts) (r : Bool × Option String) (o' : SignerOpts)
    (hlen : sig.s.length = pubs.length)
    (hv : Verify pubs sig msg opts = .ok (r, o')) :
    Recorded opts.calls ((List.range pubs.length).map (chainParts pubs sig msg opts.h))
      o'.calls := by
  obtain ⟨o1, hloop, hrec⟩ := verifyLoop_record pubs sig msg opts.h opts.calls hlen
    pubs.length 0 opts (by omega) rfl (recorded_refl _)
  have h01 : ((0 : Nat) : Int) + 1 = 1 := by simp
  have h0 : chainAt pubs sig msg opts.h 0 = sig.e := rfl
  rw [h01, h0] at hloop
  rw [Verify_eq_of_len pubs sig msg opts hlen.symm, hloop] at hv
  simp only at hv
  split at hv
  · simp at hv
  · simp only [Except.ok.injEq, Prod.mk.injEq] at hv
    rw [← hv.2]
    exact hrec
  · simp only [Except.ok.injEq, Prod.mk.injEq] at hv
    rw [← hv.2]
    exact hrec

theorem Verify_clean (pubs : List PublicKey) (sig : RingSig) (msg : List Byte)
    (opts : SignerOpts) (r : Bool × Option String) (o' : SignerOpts)
    (hv : Verify pubs sig msg opts = .ok (r, o')) :
    ∃ d, o'.calls = opts.calls ++ d ∧ CleanRecord pubs msg d := by
  by_cases hlen : pubs.length = sig.s.length
  · obtain ⟨d, hd, ho, hk⟩ := Verify_record pubs sig msg opts r o' hlen.symm hv
    refine ⟨d, hd, hk, ?_⟩
    intro ps hps
    rw [ho, List.mem_map] at hps
    obtain ⟨i, hi, rfl⟩ := hps
    have hi' := List.mem_range.mp hi
    exact ⟨_, _, getD_mem pubs ((i + 1) % pubs.length) (Nat.mod_lt _ (by omega)), rfl⟩
  · rw [Verify_of_len_ne pubs sig msg opts hlen] at hv
    simp only [Except.ok.injEq, Prod.mk.injEq] at hv
    rw [← hv.2]
    exact ⟨[], by simp, clean_nil pubs msg⟩

theorem Sign_clean (pubs : List PublicKey) (j : Int) (sk : PrivateKey) (msg : List Byte)
    (opts : SignerOpts) (r : Option RingSig) (o' : SignerOpts)
    (hsign : Sign pubs j sk msg opts = .ok (r, o')) :
    ∃ d, o'.calls = opts.calls ++ d ∧ CleanRecord pubs msg d := by
  by_cases hN : 1 ≤ pubs.length
  · by_cases hbad : j < 0 ∨ (pubs.length : Int) ≤ j
    · rw [Sign_nil_of_bad_index pubs j sk msg opts hN hbad] at hsign
      simp only [Except.ok.injEq, Prod.mk.injEq] at hsign
      rw [← hsign.2]
      exact ⟨[], by simp, clean_nil pubs msg⟩
    · obtain ⟨n, rfl, hn⟩ : ∃ n : Nat, j = n ∧ n < pubs.length :=
        ⟨j.toNat, by omega, by omega⟩
      by_cases hN1 : (curveOf pubs).N = 1
      · rw [Sign_order_one_eq pubs n sk msg opts hn hN1] at hsign
        split at hsign
        · simp at hsign
        · simp only [Except.ok.injEq, Prod.mk.injEq] at hsign
          rw [← hsign.2]
          exact ⟨_, rfl, clean_read pubs msg [] _ (clean_nil pubs msg)⟩
      · have hseed := signSeed_eq (curveOf pubs) pubs n msg
          (List.replicate pubs.length none) (List.replicate pubs.length 0) opts (by omega)
          (by exact_mod_cast hn) (by simp) hN1
        rw [Sign_eq_of_range pubs n sk msg opts hn, hseed] at hsign
        by_cases hL : drawLen (curveOf pubs) ≤ opts.rand.length
        · rw [if_pos hL] at hsign
          simp only at hsign
          obtain ⟨P, hcalls⟩ := seedNext_calls (curveOf pubs) pubs n msg
            (List.replicate pubs.length none) (List.replicate pubs.length 0) opts
          have hpos : (0 : Int) < pubs.length := by omega
          have hstart := tmod_bounds ((n : Int) + 2) pubs.length (by omega) hpos
          have hsd := tmod_bounds ((n : Int) + 1) pubs.length (by omega) hpos
          have hwalk := walk_clean (curveOf pubs) pubs n msg opts.calls hN1 pubs.length
            (((n : Int) + 2).tmod pubs.length)
            (seedNext (curveOf pubs) pubs n msg (List.replicate pubs.length none)
              (List.replicate pubs.length 0) opts).2 hstart.1 hstart.2
            (by simp [seedNext]) (by simp [seedNext])
            ⟨_, hcalls, by
              have := clean_of_step pubs msg [] _ P
                (pubs.getD (((n : Int) + 1).tmod pubs.length).toNat default)
                (getD_mem pubs _ (by omega)) (clean_nil pubs msg)
                (fun r => run_seed_block r (drawLen (curveOf pubs)) P msg _)
              simpa using this⟩
          split at hsign
          · simp at hsign
          · next o1 hw =>
            simp only [Except.ok.injEq, Prod.mk.injEq] at hsign
            rw [← hsign.2]
            exact hwalk _ _ hw
          · next st1 o1 hw =>
            split at hsign
            · simp at hsign
            · simp only [Except.ok.injEq, Prod.mk.injEq] at hsign
              rw [← hsign.2]
              exact hwalk _ _ hw
        · rw [if_neg hL] at hsign
          simp only [Except.ok.injEq, Prod.mk.injEq] at hsign
          rw [← hsign.2]
          exact ⟨_, rfl, clean_read pubs msg [] _ (clean_nil pubs msg)⟩
  · have : pubs = [] := List.length_eq_zero.mp (by omega)
    subst this
    simp [Sign, index, bind, Except.bind] at hsign

theorem walkStart_record (pubs : List PublicKey) (j : Nat) (msg : List Byte)
    (opts : SignerOpts) :
    Recorded opts.calls
      ((List.range 1).map (chalParts (curveOf pubs) pubs j msg opts.h opts.rand))
      (walkStart pubs j msg opts).opts.calls := by
  have hidx : (((j : Int) + 1).tmod pubs.length).toNat = pos pubs.length j 0 := by
    rw [seed_index]; simp
  have hcalls : (walkStart pubs j msg opts).opts.calls = opts.calls ++
      [Call.randRead (drawLen (curveOf pubs)), Call.curveScalarBaseMult, Call.hashReset,
       Call.hashWrite (Bytes (chalPoint (curveOf pubs) pubs j msg opts.h opts.rand 0).1),
       Call.hashWrite (Bytes (chalPoint (curveOf pubs) pubs j msg opts.h opts.rand 0).2),
       Call.hashWrite msg,
       Call.hashWrite (Bytes (pubs.getD (pos pubs.length j 0) default).X),
       Call.hashWrite (Bytes (pubs.getD (pos pubs.length j 0) default).Y), Call.hashSum] := by
    simp [walkStart, seedNext, hidx, chalPoint, draw]
  rw [hcalls]
  have := recorded_step opts.calls [] opts.calls _
    (chalParts (curveOf pubs) pubs j msg opts.h opts.rand 0) (recorded_refl _)
    (fun r => run_seed_block r (drawLen (curveOf pubs))
      (chalPoint (curveOf pubs) pubs j msg opts.h opts.rand 0) msg
      (pubs.getD (pos pubs.length j 0) default))
  simpa using this

theorem walkNext_record (curve : Curve) (pubs : List PublicKey) (j : Nat) (msg : List Byte)
    (o : SignerOpts) (c0 : List Call) (t : Nat) (st : Walk) (hj : j < pubs.length)
    (inv : WalkInv curve pubs j msg o t st)
    (hrec : Recorded c0 ((List.range (t + 1)).map (chalParts curve pubs j msg o.h o.rand))
      st.opts.calls) :
    Recorded c0 ((List.range (t + 1 + 1)).map (chalParts curve pubs j msg o.h o.rand))
      (walkNext curve pubs msg (pos pubs.length j (t + 1) : Nat) st).opts.calls := by
  have hN : 0 < pubs.length := by omega
  have hprev := prev_index pubs.length j t hN
  have hdraw : scalarOf curve (List.take (drawLen curve) st.opts.rand)
      = draw curve o.rand (t + 1) := by
    rw [inv.rand_eq]; rfl
  have hcalls : (walkNext curve pubs msg (pos pubs.length j (t + 1) : Nat) st).opts.calls
      = st.opts.calls ++
        [Call.randRead (drawLen curve), Call.hashReset, Call.curveScalarBaseMult,
         Call.curveScalarMult, Call.curveAdd,
         Call.hashWrite (Bytes (chalPoint curve pubs j msg o.h o.rand (t + 1)).1),
         Call.hashWrite (Bytes (chalPoint curve pubs j msg o.h o.rand (t + 1)).2),
         Call.hashWrite msg,
         Call.hashWrite (Bytes (pubs.getD (pos pubs.length j (t + 1)) default).X),
         Call.hashWrite (Bytes (pubs.getD (pos pubs.length j (t + 1)) default).Y),
         Call.hashSum] := by
    simp only [walkNext, hprev, hdraw, inv.e_eq, chalPoint, Int.toNat_ofNat]
  rw [hcalls, List.range_succ, List.map_append]
  exact recorded_step c0 _ _ _ _ hrec
    (fun r => run_walk_block r (drawLen curve)
      (chalPoint curve pubs j msg o.h o.rand (t + 1)) msg
      (pubs.getD (pos pubs.length j (t + 1)) default))

theorem walkRun_record (curve : Curve) (pubs : List PublicKey) (j : Nat) (msg : List Byte)
    (o : SignerOpts) (c0 : List Call) (hj : j < pubs.length) :
    ∀ (m t : Nat) (st : Walk), t + m + 1 = pubs.length →
      WalkInv curve pubs j msg o t st →
      Recorded c0 ((List.range (t + 1)).map (chalParts curve pubs j msg o.h o.rand))
        st.opts.calls →
      Recorded c0 ((List.range pubs.length).map (chalParts curve pubs j msg o.h o.rand))
        (walkRun curve pubs msg ((List.range' (t + 1) m).map (pos pubs.length j)) st).opts.calls := by
  intro m
  induction m with
  | zero =>
    intro t st htm _ hrec
    have ht : t + 1 = pubs.length := by omega
    simp only [List.range'_zero, List.map_nil, walkRun, List.foldl_nil]
    rw [← ht]
    exact hrec
  | succ m ih =>
    intro t st htm inv hrec
    have inv' := walkNext_inv curve pubs j msg o t st hj (by omega) inv
    have hrec' := walkNext_record curve pubs j msg o c0 t st hj inv hrec
    have hrun : walkRun curve pubs msg
        ((List.range' (t + 1) (m + 1)).map (pos pubs.length j)) st
        = walkRun curve pubs msg ((List.range' (t + 1 + 1) m).map (pos pubs.length j))
            (walkNext curve pubs msg (pos pubs.length j (t + 1) : Nat) st) := by
      simp only [walkRun, List.range'_succ, List.map_cons, List.foldl_cons]
    rw [hrun]
    exact ih (t + 1) _ (by omega) inv' hrec'

theorem Sign_record (pubs : List PublicKey) (j : Int) (sk : PrivateKey) (msg : List Byte)
    (opts : SignerOpts) (sg : RingSig) (o' : SignerOpts)
    (hsig : Sign pubs j sk msg opts = .ok (some sg, o')) :
    Recorded opts.calls
        ((List.range pubs.length).map
          (chalParts (curveOf pubs) pubs j.toNat msg opts.h opts.rand)) o'.calls ∧
      sg.e = opts.h.sum
        (chalParts (curveOf pubs) pubs j.toNat msg opts.h opts.rand
          (pubs.length - 1 - j.toNat)).flatten := by
  have hN : 1 ≤ pubs.length := by
    by_contra hcon
    have : pubs = [] := List.length_eq_zero.mp (by omega)
    subst this
    simp [Sign, index, bind, Except.bind] at hsig
  have hrange : ¬ (j < 0 ∨ (pubs.length : Int) ≤ j) := by
    intro hbad
    rw [Sign_nil_of_bad_index pubs j sk msg opts hN hbad] at hsig
    simp at hsig
  obtain ⟨n, rfl, hn⟩ : ∃ n : Nat, j = n ∧ n < pubs.length :=
    ⟨j.toNat, by omega, by omega⟩
  simp only [Int.toNat_ofNat]
  have hN1 : (curveOf pubs).N ≠ 1 := fun h1 =>
    Sign_order_one pubs n sk msg opts hn h1 sg o' hsig
  have hlen := Sign_some_stream pubs n sk msg opts hn hN1 sg o' hsig
  obtain ⟨st0, st, inv, hseed, hwalk, hsign⟩ := Sign_run pubs n sk msg opts hn hN1 hlen
  have hN0 : (curveOf pubs).N ≠ 0 := by
    intro h0
    rw [signClose_order_zero _ _ _ _ _ h0] at hsign
    rw [hsign] at hsig
    simp at hsig
  have hL : drawLen (curveOf pubs) ≤ opts.rand.length := by
    have : 1 * drawLen (curveOf pubs) ≤ pubs.length * drawLen (curveOf pubs) :=
      Nat.mul_le_mul_right _ hN
    omega
  have hseed2 := signSeed_eq (curveOf pubs) pubs n msg (List.replicate pubs.length none)
    (List.replicate pubs.length 0) opts (by omega) (by exact_mod_cast hn) (by simp) hN1
  rw [if_pos hL, hseed] at hseed2
  simp only [Except.ok.injEq, Prod.mk.injEq, Option.some.injEq] at hseed2
  have hst0 : st0 = walkStart pubs n msg opts := congrArg Prod.snd hseed2.1
  have inv0 : WalkInv (curveOf pubs) pubs n msg opts 0 (walkStart pubs n msg opts) :=
    seedNext_inv (curveOf pubs) pubs n msg opts hn
  have hfold := (walk_fold (curveOf pubs) pubs n msg opts hn hN1 hlen
    (pubs.length - 1) 0 _ pubs.length (by omega) (by omega) inv0).1
  rw [← start_index, ← hst0, hwalk] at hfold
  simp only [Except.ok.injEq, Prod.mk.injEq, Option.some.injEq] at hfold
  have hrec := walkRun_record (curveOf pubs) pubs n msg opts opts.calls hn
    (pubs.length - 1) 0 (walkStart pubs n msg opts) (by omega) inv0
    (walkStart_record pubs n msg opts)
  rw [← hst0, ← hfold.1] at hrec
  have hclose := signClose_eq (curveOf pubs) n sk (draw (curveOf pubs) opts.rand 0) st hN0
    (by omega) (by rw [inv.s_len]; exact_mod_cast hn) (by rw [inv.es_len]; exact hN)
  have hes0 := inv.es_get (pubs.length - 1 - n) (by omega)
  rw [pos_zero_index _ _ hn] at hes0
  rw [hclose] at hsign
  simp only [List.getD_eq_getElem?_getD, hes0, Option.getD_some] at hsign
  rw [hsign] at hsig
  simp only [Except.ok.injEq, Prod.mk.injEq, Option.some.injEq] at hsig
  obtain ⟨hsg, ho⟩ := hsig
  rw [← ho, ← hsg]
  exact ⟨hrec, chal_eq_sum_parts _ _ _ _ _ _ _⟩

theorem seedNext_congr (curve : Curve) (pubs : List PublicKey) (j : Int) (msg : List Byte)
    (es : List (Option (List Byte))) (s : List Int) (o o' : SignerOpts)
    (h : SameButBuf o o') :
    seedNext curve pubs j msg es s o = seedNext curve pubs j msg es s o' := by
  obtain ⟨h1, h2, h3⟩ := h
  simp only [seedNext, digest, h1, h2, h3]

theorem Sign_same_result (pubs : List PublicKey) (j : Int) (sk : PrivateKey)
    (msg : List Byte) (o o' : SignerOpts) (h : SameButBuf o o') :
    resultOf (Sign pubs j sk msg o) = resultOf (Sign pubs j sk msg o') := by
  by_cases hN : 1 ≤ pubs.length
  · by_cases hbad : j < 0 ∨ (pubs.length : Int) ≤ j
    · rw [Sign_nil_of_bad_index pubs j sk msg o hN hbad,
        Sign_nil_of_bad_index pubs j sk msg o' hN hbad]
      rfl
    · obtain ⟨n, rfl, hn⟩ : ∃ n : Nat, j = n ∧ n < pubs.length :=
        ⟨j.toNat, by omega, by omega⟩
      by_cases hN1 : (curveOf pubs).N = 1
      · rw [Sign_order_one_eq pubs n sk msg o hn hN1,
          Sign_order_one_eq pubs n sk msg o' hn hN1, h.2.1]
        split <;> rfl
      · rw [Sign_eq_of_range pubs n sk msg o hn, Sign_eq_of_range pubs n sk msg o' hn,
          signSeed_eq (curveOf pubs) pubs n msg _ _ o (by omega) (by exact_mod_cast hn)
            (by simp) hN1,
          signSeed_eq (curveOf pubs) pubs n msg _ _ o' (by omega) (by exact_mod_cast hn)
            (by simp) hN1,
          seedNext_congr _ _ _ _ _ _ o o' h, h.2.1]
        by_cases hL : drawLen (curveOf pubs) ≤ o'.rand.length
        · simp only [hL, if_true]
        · simp only [hL, if_false]
          rfl
  · have : pubs = [] := List.length_eq_zero.mp (by omega)
    subst this
    rfl

theorem chainStep_congr (pubs : List PublicKey) (sig : RingSig) (msg : List Byte)
    (h h' : Hash) (hs : h.sum = h'.sum) :
    chainStep pubs sig msg h = chainStep pubs sig msg h' := by
  funext e i
  simp only [chainStep]
  exact digest_congr _ _ hs _ _ _

theorem Verify_same_result (pubs : List PublicKey) (sig : RingSig) (msg : List Byte)
    (o o' : SignerOpts) (h : SameButBuf o o') :
    resultOf (Verify pubs sig msg o) = resultOf (Verify pubs sig msg o') := by
  by_cases hlen : pubs.length = sig.s.length
  · obtain ⟨o1, hloop, _, _⟩ := verifyLoop_final pubs sig msg o hlen.symm
    obtain ⟨o1', hloop', _, _⟩ := verifyLoop_final pubs sig msg o' hlen.symm
    have hfin : finalChallenge pubs sig msg o.h = finalChallenge pubs sig msg o'.h := by
      simp only [finalChallenge, chainStep_congr pubs sig msg o.h o'.h h.1]
    rw [Verify_eq_of_len pubs sig msg o hlen, Verify_eq_of_len pubs sig msg o' hlen,
      hloop, hloop', hfin]
    simp only
    cases sameBytes sig.e (finalChallenge pubs sig msg o'.h) with
    | error f => rfl
    | ok b => cases b <;> rfl
  · rw [Verify_of_len_ne pubs sig msg o hlen, Verify_of_len_ne pubs sig msg o' hlen]
    rfl

/-- C18. No hash state leaks between digests. In the calls recorded by a
`Sign` or a `Verify` that returns, every digest is taken after a reset of its
own (made after the previous digest), and the writes between that reset and
the digest are exactly the five parts `P.x`, `P.y`, `msg`, `Q.x`, `Q.y` for a
key `Q` of the ring. For a returned signature the digests are, in order, those
of the `N` challenges of the chain (`chalParts`), each challenge being the hash
of the concatenation of its five parts, the initial challenge among them; for
`Verify` with a matching scalar count they are those of its `N` chain
iterations (`chainParts`), each recomputed challenge being the hash of the
concatenation of its five parts. So for two options with the same hash
function, random stream and record, whatever the contents written before to
their hash instances, `Sign` returns the same result (signature, nil or fault)
and so does `Verify`. -/
theorem hash_state_does_not_leak (pubs : List PublicKey) (j : Int) (sk : PrivateKey)
    (sig : RingSig) (msg : List Byte) (o o' : SignerOpts) (h : SameButBuf o o') :
    resultOf (Sign pubs j sk msg o) = resultOf (Sign pubs j sk msg o') ∧
    resultOf (Verify pubs sig msg o) = resultOf (Verify pubs sig msg o') ∧
    (∀ r o1, Sign pubs j sk msg o = .ok (r, o1) →
      ∃ d, o1.calls = o.calls ++ d ∧ CleanRecord pubs msg d) ∧
    (∀ r o1, Verify pubs sig msg o = .ok (r, o1) →
      ∃ d, o1.calls = o.calls ++ d ∧ CleanRecord pubs msg d) ∧
    (∀ sg o1, Sign pubs j sk msg o = .ok (some sg, o1) →
      Recorded o.calls
        ((List.range pubs.length).map (chalParts (curveOf pubs) pubs j.toNat msg o.h o.rand))
        o1.calls ∧
      sg.e = o.h.sum
        (chalParts (curveOf pubs) pubs j.toNat msg o.h o.rand
          (pubs.length - 1 - j.toNat)).flatten) ∧
    (∀ t, chal (curveOf pubs) pubs j.toNat msg o.h o.rand t
      = o.h.sum (chalParts (curveOf pubs) pubs j.toNat msg o.h o.rand t).flatten) ∧
    (sig.s.length = pubs.length → ∀ r o1, Verify pubs sig msg o = .ok (r, o1) →
      Recorded o.calls ((List.range pubs.length).map (chainParts pubs sig msg o.h))
        o1.calls) ∧
    (∀ i, chainAt pubs sig msg o.h (i + 1)
      = o.h.sum (chainParts pubs sig msg o.h i).flatten) ∧
    finalChallenge pubs sig msg o.h = chainAt pubs sig msg o.h pubs.length :=
  ⟨Sign_same_result pubs j sk msg o o' h, Verify_same_result pubs sig msg o o' h,
    fun r o1 hs => Sign_clean pubs j sk msg o r o1 hs,
    fun r o1 hv => Verify_clean pubs sig msg o r o1 hv,
    fun sg o1 hs => Sign_record pubs j sk msg o sg o1 hs,
    fun t => chal_eq_sum_parts _ _ _ _ _ _ t,
    fun hlen r o1 hv => Verify_record pubs sig msg o r o1 hlen hv,
    fun i => chainAt_succ pubs sig msg o.h i, rfl⟩

/-- C18, at the example ring, for the example options and the same options
with three bytes already written to the hash instance: same results, and the
record of the example signature holds the three digests of its chain. -/
theorem hash_state_does_not_leak_witness :
    resultOf (Sign exRing 1 (exKey 5) exMsg exOpts)
        = resultOf (Sign exRing 1 (exKey 5) exMsg ⟨⟨exHash.sum, [1, 2, 3]⟩, exStream, []⟩) ∧
      resultOf (Verify exRing ⟨[255], [2, 6, 6]⟩ exMsg exOpts)
        = resultOf (Verify exRing ⟨[255], [2, 6, 6]⟩ exMsg
            ⟨⟨exHash.sum, [1, 2, 3]⟩, exStream, []⟩) ∧
      resultOf (Sign exRing 1 (exKey 5) exMsg exOpts) = .ok (some ⟨[255], [2, 6, 6]⟩) ∧
      resultOf (Verify exRing ⟨[255], [2, 6, 6]⟩ exMsg exOpts) = .ok (true, none) ∧
      ∃ o1, Sign exRing 1 (exKey 5) exMsg exOpts = .ok (some ⟨[255], [2, 6, 6]⟩, o1) ∧
        Recorded exOpts.calls
          ((List.range exRing.length).map
            (chalParts (curveOf exRing) exRing (1 : Int).toNat exMsg exOpts.h exOpts.rand))
          o1.calls :=
  ⟨(hash_state_does_not_leak exRing 1 (exKey 5) ⟨[255], [2, 6, 6]⟩ exMsg exOpts
      ⟨⟨exHash.sum, [1, 2, 3]⟩, exStream, []⟩ ⟨rfl, rfl, rfl⟩).1,
   (hash_state_does_not_leak exRing 1 (exKey 5) ⟨[255], [2, 6, 6]⟩ exMsg exOpts
      ⟨⟨exHash.sum, [1, 2, 3]⟩, exStream, []⟩ ⟨rfl, rfl, rfl⟩).2.1, rfl, rfl,
   ⟨_, rfl,
    ((hash_state_does_not_leak exRing 1 (exKey 5) ⟨[255], [2, 6, 6]⟩ exMsg exOpts
      exOpts ⟨rfl, rfl, rfl⟩).2.2.2.2.1 ⟨[255], [2, 6, 6]⟩ _ rfl).1⟩⟩

end Ringsig
